import Mathlib

/-!
Shallow embedding of the search engine in src/search.py (VaccumAI repository)
and proofs about it.

Conventions of the embedding:
* Python machine numbers are modelled exactly: grid coordinates are `Int`,
  path costs are `ℚ` (the float arithmetic of the cost functions is exact
  rational arithmetic on the inputs the engine produces).
* Actions are the closed four-direction alphabet the program uses.
* The mutation of `self.agent.direction` inside `VacuumPlanning.result` is
  modelled by explicit state passing (the function returns the new direction).
* The unbounded `while` loops of the search algorithms are modelled with an
  explicit fuel parameter; exhausting the fuel returns the same value as an
  exhausted frontier, and the theorems supply enough fuel for the loop to
  terminate on its own.
* The explored `set()` of the Python code is modelled as a duplicate-free
  list built by `addState` (insertion order; membership is what matters).
-/

namespace VaccumAI

/-- The action alphabet of the vacuum world: the four directions. -/
inductive Action : Type where
  | UP : Action
  | DOWN : Action
  | LEFT : Action
  | RIGHT : Action
deriving DecidableEq, Repr, Fintype

/-- A search problem: the `Problem` operations that the engine in search.py
actually consumes.  `path_cost` receives exactly the data the source reads
from the parent node (`curNode.path_cost` and `curNode.action`) together with
`state1`, `action`, `state2`. -/
structure SearchProb (σ : Type) where
  initial : σ
  actions : σ → List Action
  result : σ → Action → σ
  goal_test : σ → Bool
  path_cost : ℚ → Option Action → σ → Action → σ → ℚ

/-- Search-tree nodes (class `Node`): a root holds a state; a child holds its
parent, the action that produced it, its state and its accumulated path cost.
`path_cost` of a root is 0 and `depth` is computed as in `Node.__init__`. -/
inductive Node (σ : Type) : Type where
  | root : σ → Node σ
  | child : Node σ → Action → σ → ℚ → Node σ
deriving DecidableEq

/-- `Node.state`. -/
def Node.state {σ : Type} : Node σ → σ
  | Node.root s => s
  | Node.child _ _ s _ => s

/-- `Node.path_cost` (0 at a root, as set by the default argument). -/
def Node.path_cost {σ : Type} : Node σ → ℚ
  | Node.root _ => 0
  | Node.child _ _ _ c => c

/-- `Node.depth`: 0 at a root, parent.depth + 1 otherwise. -/
def Node.depth {σ : Type} : Node σ → Nat
  | Node.root _ => 0
  | Node.child p _ _ _ => p.depth + 1

/-- `Node.action`: `None` at a root, the producing action otherwise. -/
def Node.act {σ : Type} : Node σ → Option Action
  | Node.root _ => none
  | Node.child _ a _ _ => some a

/-- `Node.solution()`: the actions labelling `path()[1:]`, i.e. the action
labels collected on the way down from the root. -/
def Node.solution {σ : Type} : Node σ → List Action
  | Node.root _ => []
  | Node.child p a _ _ => p.solution ++ [a]

/-- The state at the root of a node's parent chain (the first entry of
`Node.path()`). -/
def Node.rootState {σ : Type} : Node σ → σ
  | Node.root s => s
  | Node.child p _ _ _ => p.rootState

/-- `Node.child_node`: build the child reached by `action`, with state from
`problem.result` and cost from `problem.path_cost(self, self.state, action,
next_state)`. -/
def child_node {σ : Type} (p : SearchProb σ) (n : Node σ) (a : Action) : Node σ :=
  let next_state := p.result n.state a
  Node.child n a next_state (p.path_cost n.path_cost n.act n.state a next_state)

/-- The effect of `actions.sort(key=lambda a: 0 if a == 'LEFT' else 1)`:
a stable sort on a binary key, i.e. all LEFT entries first, every other
action keeping its relative order. -/
def sortLeftFirst (l : List Action) : List Action :=
  l.filter (fun a => decide (a = Action.LEFT)) ++
    l.filter (fun a => decide (¬ a = Action.LEFT))

/-- `Node.expand`: children for each action of the LEFT-prioritized action
list. -/
def Node.expand {σ : Type} (p : SearchProb σ) (n : Node σ) : List (Node σ) :=
  (sortLeftFirst (p.actions n.state)).map (child_node p n)

/-- `explored.add(s)` on a Python `set`, modelled on duplicate-free lists. -/
def addState {σ : Type} [DecidableEq σ] (explored : List σ) (s : σ) : List σ :=
  if s ∈ explored then explored else explored ++ [s]

/-- The `c in front` membership test on a frontier list, which compares nodes
with `Node.__eq__`, i.e. by state only. -/
def inFrontier {σ : Type} [DecidableEq σ] (front : List (Node σ)) (c : Node σ) : Bool :=
  front.any (fun m => decide (m.state = c.state))

/-- The body of the `for act in actions` loop of
`breadth_first_graph_search`: children are generated with `child_node`
directly from `problem.actions(node.state)` (no reordering), skipped when
their state is explored or already on the frontier, returned on goal success,
and otherwise appended at the tail of the FIFO frontier. -/
def bfsChildren {σ : Type} [DecidableEq σ] (p : SearchProb σ) (n : Node σ) :
    List Action → List (Node σ) → List σ → Option (Node σ) × List (Node σ)
  | [], front, _ => (none, front)
  | a :: rest, front, explored =>
    let c := child_node p n a
    if c.state ∈ explored ∨ inFrontier front c then
      bfsChildren p n rest front explored
    else if p.goal_test c.state then (some c, front)
    else bfsChildren p n rest (front ++ [c]) explored

/-- The `while` loop of `breadth_first_graph_search`, with fuel.  The head of
the frontier list is the node `popleft()` removes. -/
def bfsLoop {σ : Type} [DecidableEq σ] (p : SearchProb σ) :
    Nat → List (Node σ) → List σ → Option (Node σ) × List σ
  | 0, _, explored => (none, explored)
  | _ + 1, [], explored => (none, explored)
  | fuel + 1, node :: rest, explored =>
    let explored1 := addState explored node.state
    match bfsChildren p node (p.actions node.state) rest explored1 with
    | (some c, _) => (some c, explored1)
    | (none, front1) => bfsLoop p fuel front1 explored1

/-- `breadth_first_graph_search`. -/
def breadth_first_graph_search {σ : Type} [DecidableEq σ] (p : SearchProb σ)
    (fuel : Nat) : Option (Node σ) × List σ :=
  if p.goal_test (Node.root p.initial : Node σ).state then
    (some (Node.root p.initial), [(Node.root p.initial : Node σ).state])
  else bfsLoop p fuel [Node.root p.initial] []

/-- The body of the `for act in actions` loop of `depth_first_graph_search`:
identical to the BFS one except that the frontier is a stack.  The stack is
represented with its top (the element `list.pop()` removes) at the head, so
`front.append(c)` is cons. -/
def dfsChildren {σ : Type} [DecidableEq σ] (p : SearchProb σ) (n : Node σ) :
    List Action → List (Node σ) → List σ → Option (Node σ) × List (Node σ)
  | [], front, _ => (none, front)
  | a :: rest, front, explored =>
    let c := child_node p n a
    if c.state ∈ explored ∨ inFrontier front c then
      dfsChildren p n rest front explored
    else if p.goal_test c.state then (some c, front)
    else dfsChildren p n rest (c :: front) explored

/-- The `while` loop of `depth_first_graph_search`, with fuel. -/
def dfsLoop {σ : Type} [DecidableEq σ] (p : SearchProb σ) :
    Nat → List (Node σ) → List σ → Option (Node σ) × List σ
  | 0, _, explored => (none, explored)
  | _ + 1, [], explored => (none, explored)
  | fuel + 1, node :: rest, explored =>
    let explored1 := addState explored node.state
    match dfsChildren p node (p.actions node.state) rest explored1 with
    | (some c, _) => (some c, explored1)
    | (none, front1) => dfsLoop p fuel front1 explored1

/-- `depth_first_graph_search`. -/
def depth_first_graph_search {σ : Type} [DecidableEq σ] (p : SearchProb σ)
    (fuel : Nat) : Option (Node σ) × List σ :=
  if p.goal_test (Node.root p.initial : Node σ).state then
    (some (Node.root p.initial), [(Node.root p.initial : Node σ).state])
  else dfsLoop p fuel [Node.root p.initial] []

/-- Modelled from the spec: the `PriorityQueue` class lives in `utils.py`,
which is not part of src/.  Per the spec it is a min-priority queue over
`(f-value, node)` entries, ordered by ascending f, with membership, lookup
and deletion comparing nodes by state (through `Node.__eq__`). -/
abbrev PQueue (σ : Type) := List (ℚ × Node σ)

/-- `front[c]` (`__getitem__`): the stored f-value of the first entry whose
node has the given state. -/
def pqLookup {σ : Type} [DecidableEq σ] (front : PQueue σ) (s : σ) : Option ℚ :=
  (front.find? (fun e => decide (e.2.state = s))).map (fun e => e.1)

/-- `del front[c]` (`__delitem__`): remove the first entry whose node has the
given state. -/
def pqDelete {σ : Type} [DecidableEq σ] (front : PQueue σ) (s : σ) : PQueue σ :=
  front.eraseP (fun e => decide (e.2.state = s))

/-- Modelled from the spec: `front.pop()` removes and returns an entry with
minimal stored f-value (the first of the minimal ones). -/
def pqPop {σ : Type} : PQueue σ → Option ((ℚ × Node σ) × PQueue σ)
  | [] => none
  | e :: rest =>
    match pqPop rest with
    | none => some (e, [])
    | some (m, rest1) =>
      if e.1 ≤ m.1 then some (e, rest) else some (m, e :: rest1)

/-- The per-child frontier update of `best_first_graph_search` (module level,
line 546-558): append when the child's state is neither explored nor on the
frontier; else, when it is on the frontier and `not f(c) >= front[c]`, delete
the old entry and append the child; otherwise leave the frontier unchanged. -/
def bfUpdate {σ : Type} [DecidableEq σ] (f : Node σ → ℚ) (explored : List σ)
    (front : PQueue σ) (c : Node σ) : PQueue σ :=
  if ¬ (c.state ∈ explored ∨ (pqLookup front c.state).isSome) then
    front ++ [(f c, c)]
  else
    match pqLookup front c.state with
    | some v => if ¬ f c ≥ v then pqDelete front c.state ++ [(f c, c)] else front
    | none => front

/-- The `while` loop of `best_first_graph_search`, with fuel: pop a minimal
entry, return it on goal success with the explored set unchanged, otherwise
mark it explored, expand it (`node.expand`, LEFT first) and fold the frontier
update over the children. -/
def bfLoop {σ : Type} [DecidableEq σ] (p : SearchProb σ) (f : Node σ → ℚ) :
    Nat → PQueue σ → List σ → Option (Node σ) × List σ
  | 0, _, explored => (none, explored)
  | fuel + 1, front, explored =>
    match pqPop front with
    | none => (none, explored)
    | some (e, front1) =>
      if p.goal_test e.2.state then (some e.2, explored)
      else
        let explored1 := addState explored e.2.state
        bfLoop p f fuel ((Node.expand p e.2).foldl (bfUpdate f explored1) front1) explored1

/-- `best_first_graph_search` (module level): frontier initialized with the
root node keyed by `f`, empty explored set. -/
def best_first_graph_search {σ : Type} [DecidableEq σ] (p : SearchProb σ)
    (f : Node σ → ℚ) (fuel : Nat) : Option (Node σ) × List σ :=
  bfLoop p f fuel [(f (Node.root p.initial), Node.root p.initial)] []

/-- `uniform_cost_search`: best-first graph search with
`f(node) = node.path_cost`. -/
def uniform_cost_search {σ : Type} [DecidableEq σ] (p : SearchProb σ)
    (fuel : Nat) : Option (Node σ) × List σ :=
  best_first_graph_search p Node.path_cost fuel

/-- `reflexAgentSearch`: expand the current state one level (via
`Node.expand`); return the first goal-satisfying neighbor if one exists, else
a random neighbor; the explored-set component is always `None`.  The draw of
`random.choice(neighbors)` is modelled by an index parameter `r`: the picked
element is `neighbors[r % len(neighbors)]` (none when there is no
neighbor, where the source would raise). -/
def reflexAgentSearch {σ : Type} [DecidableEq σ] (p : SearchProb σ) (r : Nat) :
    Option (Node σ) × Option (List σ) :=
  match (Node.expand p (Node.root p.initial)).find? (fun m => p.goal_test m.state) with
  | some m => (some m, none)
  | none =>
    ((Node.expand p (Node.root p.initial)).get?
      (r % (Node.expand p (Node.root p.initial)).length), none)

/-! ## The VacuumPlanning problem (the parts in src/search.py) -/

/-- The environment data the embedded `VacuumPlanning` methods read:
`env.costFunc`, `env.searchType`, `len(self.map)` (`self.map = env.things`),
the locations of `Dirt` things, and `env.args['heuristic']`. -/
structure VEnv where
  costFunc : String
  searchType : String
  mapLen : Nat
  dirtyRooms : List (Int × Int)
  heuristicArg : String

/-- `VacuumPlanning.result`: the returned successor coordinates together with
the new agent direction (the source assigns `self.agent.direction = action`
before computing the new state). -/
def VacuumPlanning.result (agentDirection : Action) (state : Int × Int)
    (action : Action) : (Int × Int) × Action :=
  let new_state :=
    match action with
    | Action.RIGHT => (state.1 + 1, state.2)
    | Action.LEFT => (state.1 - 1, state.2)
    | Action.UP => (state.1, state.2 + 1)
    | Action.DOWN => (state.1, state.2 - 1)
  (new_state, action)

/-- `VacuumPlanning.goal_test`: `env.some_things_at(state, Dirt)`, i.e. the
state is one of the dirty rooms. -/
def VacuumPlanning.goal_test (env : VEnv) (state : Int × Int) : Bool :=
  decide (state ∈ env.dirtyRooms)

/-- `VacuumPlanning.computeTurnCost`: arguments outside the four directions
(modelled as `none`; in the source, `None` at the root or any other value)
cost 0; otherwise 3 times `min(tc, 4 - tc)` where `tc` is the absolute index
difference in `['UP', 'RIGHT', 'DOWN', 'LEFT']`. -/
def dirIndex : Action → Int
  | Action.UP => 0
  | Action.RIGHT => 1
  | Action.DOWN => 2
  | Action.LEFT => 3

def computeTurnCost (action1 action : Option Action) : Nat :=
  match action1, action with
  | some a1, some a2 =>
    let tc := (dirIndex a2 - dirIndex a1).natAbs
    (min tc (4 - tc)) * 3
  | _, _ => 0

/-- `VacuumPlanning.path_cost`: dispatch on `env.costFunc`; an unrecognized
cost function leaves the accumulated cost unchanged (the source initializes
`cost = curNode.path_cost` and returns it if no branch fires). -/
def VacuumPlanning.path_cost (env : VEnv) (curCost : ℚ) (curAction : Option Action)
    (state1 : Int × Int) (action : Action) (state2 : Int × Int) : ℚ :=
  if env.costFunc = "Step" then curCost + 1
  else if env.costFunc = "StepTurn" then
    (curCost + 1) + (computeTurnCost curAction (some action) : ℚ)
  else if env.costFunc = "StayLeft" then curCost + (state2.1 : ℚ)
  else if env.costFunc = "StayUp" then
    let c := (curCost + 1) + (state2.2 : ℚ) / (env.mapLen : ℚ)
    if env.searchType = "UCS" ∧ action = Action.DOWN then c + 5 else c
  else curCost

/-- `VacuumPlanning.findMinManhattanDist`: 0 when there is no dirty room,
else the running minimum of `|Δx| + |Δy|` over the dirty rooms (the source
starts from infinity and keeps the strictly smaller value, which is the fold
of `min` started at the first distance). -/
def manhattanDist (pos room : Int × Int) : Int :=
  |pos.1 - room.1| + |pos.2 - room.2|

def findMinManhattanDist (dirtyRooms : List (Int × Int)) (pos : Int × Int) : Int :=
  match dirtyRooms with
  | [] => 0
  | r :: rs => rs.foldl (fun m room => min m (manhattanDist pos room)) (manhattanDist pos r)

/-- `VacuumPlanning.findMinEuclidDist`: same with squared Euclidean distance
(the source never takes a square root). -/
def euclidSqDist (pos room : Int × Int) : Int :=
  (pos.1 - room.1) ^ 2 + (pos.2 - room.2) ^ 2

def findMinEuclidDist (dirtyRooms : List (Int × Int)) (pos : Int × Int) : Int :=
  match dirtyRooms with
  | [] => 0
  | r :: rs => rs.foldl (fun m room => min m (euclidSqDist pos room)) (euclidSqDist pos r)

/-- `VacuumPlanning.h`: Manhattan when `env.args['heuristic'] == 'Manhattan'`,
else squared Euclidean, both at `node.state`. -/
def VacuumPlanning.h (env : VEnv) (node : Node (Int × Int)) : Int :=
  if env.heuristicArg = "Manhattan" then findMinManhattanDist env.dirtyRooms node.state
  else findMinEuclidDist env.dirtyRooms node.state

/-! ## Path semantics used to state the claims -/

/-- Run a list of actions from a state through `problem.result`. -/
def runActions {σ : Type} (p : SearchProb σ) : σ → List Action → σ
  | s, [] => s
  | s, a :: acts => runActions p (p.result s a) acts

/-- A list of actions is legal from a state when every step uses an action
offered by `problem.actions` at the current state. -/
def legalFrom {σ : Type} [DecidableEq σ] (p : SearchProb σ) : σ → List Action → Bool
  | _, [] => true
  | s, a :: acts => decide (a ∈ p.actions s) && legalFrom p (p.result s a) acts

/-- Total cost of a path under a per-step cost `step s a s2`. -/
def pathCostOf {σ : Type} (p : SearchProb σ) (step : σ → Action → σ → ℚ) :
    σ → List Action → ℚ
  | _, [] => 0
  | s, a :: acts =>
    step s a (p.result s a) + pathCostOf p step (p.result s a) acts

/-- Nodes built by repeated `child_node` construction from some root. -/
inductive BuiltFrom {σ : Type} (p : SearchProb σ) : Node σ → Prop where
  | root (s : σ) : BuiltFrom p (Node.root s)
  | child {n : Node σ} (a : Action) : BuiltFrom p n → BuiltFrom p (child_node p n a)

/-- Nodes the search algorithms actually create: built from the problem's
initial state by legal actions. -/
inductive Reached {σ : Type} (p : SearchProb σ) : Node σ → Prop where
  | root : Reached p (Node.root p.initial)
  | child {n : Node σ} {a : Action} : Reached p n → a ∈ p.actions n.state →
      Reached p (child_node p n a)

/-- Iterate `child_node` along a list of actions (the node a search would
hand back for that action sequence). -/
def accumNode {σ : Type} (p : SearchProb σ) : Node σ → List Action → Node σ
  | n, [] => n
  | n, a :: acts => accumNode p (child_node p n a) acts

/-- The distance function `VacuumPlanning.h` selects: Manhattan when
`env.args['heuristic'] == 'Manhattan'`, else squared Euclidean. -/
def selDist (env : VEnv) : (Int × Int) → (Int × Int) → Int :=
  if env.heuristicArg = "Manhattan" then manhattanDist else euclidSqDist

/-! ## Concrete instances used for counterexamples and witnesses -/

/-- The `VacuumPlanning` problem on an environment without walls:
`VacuumPlanning.actions` returns all four directions when no `Wall` thing is
adjacent (the wall scan reads `env.things_near` from agents.py, outside
src/); `result`, `goal_test` and `path_cost` are the embedded methods. -/
def vpProbFree (env : VEnv) (start : Int × Int) : SearchProb (Int × Int) :=
  { initial := start
    actions := fun _ => [Action.UP, Action.DOWN, Action.LEFT, Action.RIGHT]
    result := fun s a => (VacuumPlanning.result Action.UP s a).1
    goal_test := VacuumPlanning.goal_test env
    path_cost := VacuumPlanning.path_cost env }

/-- A StayUp environment whose search type is UCS. -/
def envStayUpUCS : VEnv :=
  { costFunc := "StayUp", searchType := "UCS", mapLen := 3,
    dirtyRooms := [(2, 2)], heuristicArg := "Manhattan" }

/-- The same StayUp environment with search type A*. -/
def envStayUpAstar : VEnv :=
  { costFunc := "StayUp", searchType := "A*", mapLen := 3,
    dirtyRooms := [(2, 2)], heuristicArg := "Manhattan" }

/-- A frontier node holding state 7 reached as a root (used to exhibit the
frontier replacement behavior on equal f values). -/
def c1Old : Node Int := Node.root 7

/-- A different node with the same state 7, reached as a child with path cost
5 (so with f = path_cost its f value equals a stored value of 5). -/
def c1Child : Node Int := Node.child (Node.root 0) Action.UP 7 5

/-- Wall-free vacuum problem with the agent at (0,0) and dirt at (0,1) and
(-1,0): both the UP neighbor and the LEFT neighbor are goals. -/
def c2Env : VEnv :=
  { costFunc := "Step", searchType := "BFS", mapLen := 3,
    dirtyRooms := [(0, 1), (-1, 0)], heuristicArg := "Manhattan" }

def c2Prob : SearchProb (Int × Int) := vpProbFree c2Env (0, 0)

/-- Wall-free vacuum problem whose initial cell is itself dirty. -/
def c8Env : VEnv :=
  { costFunc := "Step", searchType := "BFS", mapLen := 3,
    dirtyRooms := [(0, 0)], heuristicArg := "Manhattan" }

def c8Prob : SearchProb (Int × Int) := vpProbFree c8Env (0, 0)

/-- Wall-free vacuum problem with the agent at (0,0) and a single dirty
room at (0,1): exactly one neighbor is a goal. -/
def c5Env : VEnv :=
  { costFunc := "Step", searchType := "Reflex", mapLen := 3,
    dirtyRooms := [(0, 1)], heuristicArg := "Manhattan" }

def c5Prob : SearchProb (Int × Int) := vpProbFree c5Env (0, 0)

/-- The states on a frontier, in order. -/
def pqStates {σ : Type} (front : PQueue σ) : List σ :=
  front.map (fun e => e.2.state)

/-- A two-state chain problem (0 --RIGHT--> 1, 1 a goal) whose reachable
state space is the finite set {0, 1}; used to instantiate the generic
search theorems. -/
def c4Prob : SearchProb Int :=
  { initial := 0
    actions := fun s => if s < 1 then [Action.RIGHT] else []
    result := fun s a => if a = Action.RIGHT then s + 1 else s
    goal_test := fun s => decide (s = 1)
    path_cost := fun c _ _ _ _ => c + 1 }

/-- A three-state chain 0 -> 1 -> 2 with two routes into the middle state
and a turn-style cost in the spirit of the StepTurn cost function: the
per-step amount read off the cost function depends on the action that
produced the current node (`curNode.action`). Entering state 1 costs 1 via
UP and 2 via RIGHT; reaching the goal 2 from state 1 adds 0 when state 1
was entered with RIGHT and 10 when it was entered with UP. The cost
function returns the accumulated totals directly as literals (1, 2, 11),
which on every constructible node equals the parent's cost plus a
non-negative amount. -/
def c4bProb : SearchProb Int :=
  { initial := 0
    actions := fun s =>
      if s = 0 then [Action.UP, Action.RIGHT]
      else if s = 1 then [Action.UP] else []
    result := fun s _ => if s = 0 then 1 else if s = 1 then 2 else s
    goal_test := fun s => decide (s = 2)
    path_cost := fun _ ca s1 a _ =>
      if s1 = 0 then (if a = Action.RIGHT then 2 else 1)
      else if ca = some Action.RIGHT then 2 else 11 }

/-- A one-state problem whose initial state is already a goal and whose
action list is empty (reachable state space {0}). -/
def c8ProbB : SearchProb Int :=
  { initial := 0
    actions := fun _ => []
    result := fun s _ => s
    goal_test := fun s => decide (s = 0)
    path_cost := fun c _ _ _ _ => c + 1 }

/-- The loop invariant of `best_first_graph_search` specialized to uniform
cost (f = path_cost), over the frontier `F`, the explored list `E` and the
ghost map `D` recording the path cost each explored state was expanded at.
`R` is any finite transition-closed superset of the reachable states and
`step` the per-step cost. -/
structure UcsInv {σ : Type} [DecidableEq σ] (p : SearchProb σ)
    (step : σ → Action → σ → ℚ) (R : Finset σ)
    (F : PQueue σ) (E : List σ) (D : σ → ℚ) : Prop where
  entries : ∀ e ∈ F, e.1 = e.2.path_cost ∧ Reached p e.2
  statesNodup : (pqStates F).Nodup
  statesR : ∀ e ∈ F, e.2.state ∈ R
  disjoint : ∀ e ∈ F, ¬ e.2.state ∈ E
  eNodup : E.Nodup
  eR : ∀ s ∈ E, s ∈ R
  eNoGoal : ∀ s ∈ E, p.goal_test s = false
  eOpt : ∀ s ∈ E, ∀ acts, legalFrom p p.initial acts = true →
      runActions p p.initial acts = s → D s ≤ pathCostOf p step p.initial acts
  eReal : ∀ s ∈ E, ∃ acts, legalFrom p p.initial acts = true ∧
      runActions p p.initial acts = s ∧ pathCostOf p step p.initial acts = D s
  cover : ∀ s ∈ E, ∀ a ∈ p.actions s,
      (p.result s a ∈ E ∧ D (p.result s a) ≤ D s + step s a (p.result s a)) ∨
      (∃ e ∈ F, e.2.state = p.result s a ∧ e.1 ≤ D s + step s a (p.result s a))
  rootCover : (p.initial ∈ E ∧ D p.initial ≤ 0) ∨
      (∃ e ∈ F, e.2.state = p.initial ∧ e.1 ≤ 0)

/-! ## Helper lemmas -/

theorem runActions_append {σ : Type} (p : SearchProb σ) :
    ∀ (l1 l2 : List Action) (s : σ),
      runActions p s (l1 ++ l2) = runActions p (runActions p s l1) l2 := by
  intro l1
  induction l1 with
  | nil => intro l2 s; rfl
  | cons a acts ih => intro l2 s; exact ih l2 (p.result s a)

theorem foldl_min_le {α β : Type} [LinearOrder α] (g : β → α) :
    ∀ (l : List β) (init : α),
      (l.foldl (fun m r => min m (g r)) init ≤ init) ∧
      (∀ r ∈ l, l.foldl (fun m r => min m (g r)) init ≤ g r) := by
  intro l
  induction l with
  | nil =>
    intro init
    exact ⟨le_refl _, by intro r hr; cases hr⟩
  | cons x xs ih =>
    intro init
    refine ⟨le_trans (ih (min init (g x))).1 (min_le_left _ _), ?_⟩
    intro r hr
    rcases List.mem_cons.mp hr with h | h
    · subst h
      exact le_trans (ih (min init (g r))).1 (min_le_right _ _)
    · exact (ih (min init (g x))).2 r h

theorem child_node_state {σ : Type} (p : SearchProb σ) (n : Node σ) (a : Action) :
    (child_node p n a).state = p.result n.state a := rfl

theorem child_node_cost {σ : Type} (p : SearchProb σ) (n : Node σ) (a : Action) :
    (child_node p n a).path_cost =
      p.path_cost n.path_cost n.act n.state a (p.result n.state a) := rfl

theorem child_node_act {σ : Type} (p : SearchProb σ) (n : Node σ) (a : Action) :
    (child_node p n a).act = some a := rfl

theorem child_node_depth {σ : Type} (p : SearchProb σ) (n : Node σ) (a : Action) :
    (child_node p n a).depth = n.depth + 1 := rfl

theorem child_node_solution {σ : Type} (p : SearchProb σ) (n : Node σ) (a : Action) :
    (child_node p n a).solution = n.solution ++ [a] := rfl

/-- First-match characterization of List.find?: if position i holds a
satisfying element and every earlier position fails, find? returns it. -/
theorem find?_first {α : Type} (q : α → Bool) :
    ∀ (l : List α) (i : Nat) (m : α), l.get? i = some m → q m = true →
      (∀ j, j < i → ∀ m2, l.get? j = some m2 → q m2 = false) →
      l.find? q = some m := by
  intro l
  induction l with
  | nil => intro i m hm; cases hm
  | cons x xs ih =>
    intro i m hm hq hprev
    cases i with
    | zero =>
      have hx : x = m := by injection hm
      subst hx
      simp [List.find?, hq]
    | succ j =>
      have hx : q x = false := hprev 0 (Nat.succ_pos j) x rfl
      have : (x :: xs).find? q = xs.find? q := by simp [List.find?, hx]
      rw [this]
      exact ih j m hm hq (fun k hk m2 hm2 => hprev (k + 1) (Nat.succ_lt_succ hk) m2 hm2)

theorem addState_mem {σ : Type} [DecidableEq σ] (explored : List σ) (s t : σ) :
    t ∈ addState explored s ↔ t ∈ explored ∨ t = s := by
  unfold addState
  split
  · constructor
    · exact fun h => Or.inl h
    · rintro (h | h)
      · exact h
      · subst h; assumption
  · simp

theorem addState_nodup {σ : Type} [DecidableEq σ] (explored : List σ) (s : σ)
    (h : explored.Nodup) : (addState explored s).Nodup := by
  unfold addState
  split
  · exact h
  · rename_i hs
    rw [List.nodup_append]
    refine ⟨h, List.nodup_singleton s, ?_⟩
    intro a ha hb
    simp at hb
    subst hb
    exact hs ha

theorem addState_of_not_mem {σ : Type} [DecidableEq σ] (explored : List σ) (s : σ)
    (h : ¬ s ∈ explored) : addState explored s = explored ++ [s] := by
  unfold addState
  simp [h]

theorem nodup_subset_length_le_card {σ : Type} [DecidableEq σ] (l : List σ)
    (R : Finset σ) (hnd : l.Nodup) (hsub : ∀ s ∈ l, s ∈ R) : l.length ≤ R.card := by
  have h1 : l.toFinset ⊆ R := fun s hs => hsub s (List.mem_toFinset.mp hs)
  have h2 : l.toFinset.card = l.length := by
    rw [List.card_toFinset, List.dedup_eq_self.mpr hnd]
  rw [← h2]
  exact Finset.card_le_card h1

theorem runActions_snoc {σ : Type} (p : SearchProb σ) :
    ∀ (l : List Action) (a : Action) (s : σ),
      runActions p s (l ++ [a]) = p.result (runActions p s l) a := by
  intro l a s
  rw [runActions_append]
  rfl

theorem legalFrom_snoc {σ : Type} [DecidableEq σ] (p : SearchProb σ) :
    ∀ (l : List Action) (a : Action) (s : σ),
      legalFrom p s (l ++ [a]) =
        (legalFrom p s l && decide (a ∈ p.actions (runActions p s l))) := by
  intro l
  induction l with
  | nil =>
    intro a s
    simp [legalFrom, runActions]
  | cons x xs ih =>
    intro a s
    show (decide (x ∈ p.actions s) && legalFrom p (p.result s x) (xs ++ [a])) = _
    rw [ih a (p.result s x)]
    simp [legalFrom, runActions, Bool.and_assoc]

theorem pathCostOf_snoc {σ : Type} (p : SearchProb σ) (step : σ → Action → σ → ℚ) :
    ∀ (l : List Action) (a : Action) (s : σ),
      pathCostOf p step s (l ++ [a]) =
        pathCostOf p step s l +
          step (runActions p s l) a (p.result (runActions p s l) a) := by
  intro l
  induction l with
  | nil =>
    intro a s
    simp [pathCostOf, runActions]
  | cons x xs ih =>
    intro a s
    show step s x (p.result s x) + pathCostOf p step (p.result s x) (xs ++ [a]) = _
    rw [ih a (p.result s x)]
    show _ = step s x (p.result s x) + pathCostOf p step (p.result s x) xs + _
    rw [add_assoc]
    rfl

/-- A node the search actually created replays: its solution is legal from
the initial state, runs to its state, and (for additive per-step costs)
costs exactly its recorded path cost. -/
theorem reached_spec {σ : Type} [DecidableEq σ] (p : SearchProb σ)
    (step : σ → Action → σ → ℚ)
    (hpc : ∀ (c : ℚ) (ca : Option Action) (s1 : σ) (a : Action) (s2 : σ),
      p.path_cost c ca s1 a s2 = c + step s1 a s2) :
    ∀ n : Node σ, Reached p n →
      legalFrom p p.initial n.solution = true ∧
      runActions p p.initial n.solution = n.state ∧
      pathCostOf p step p.initial n.solution = n.path_cost := by
  intro n h
  induction h with
  | root => exact ⟨rfl, rfl, rfl⟩
  | @child n a hr ha ih =>
    rw [child_node_solution, child_node_state, child_node_cost]
    refine ⟨?_, ?_, ?_⟩
    · rw [legalFrom_snoc, ih.1, ih.2.1]
      simp [ha]
    · rw [runActions_snoc, ih.2.1]
    · rw [pathCostOf_snoc, ih.2.1, ih.2.2, hpc]

theorem pqPop_of_nonempty {σ : Type} (e : ℚ × Node σ) (rest : PQueue σ) :
    ∃ x, pqPop (e :: rest) = some x := by
  unfold pqPop
  rcases pqPop rest with _ | m
  · exact ⟨(e, []), rfl⟩
  · dsimp only
    split
    · exact ⟨(e, rest), rfl⟩
    · exact ⟨(m.1, e :: m.2), rfl⟩

theorem pqPop_perm {σ : Type} :
    ∀ (F : PQueue σ) (e : ℚ × Node σ) (F1 : PQueue σ),
      pqPop F = some (e, F1) → F.Perm (e :: F1) := by
  intro F
  induction F with
  | nil => intro e F1 h; cases h
  | cons x rest ih =>
    intro e F1 h
    rcases hr : pqPop rest with _ | m
    · unfold pqPop at h
      rw [hr] at h
      cases rest with
      | nil =>
        injection h with h2
        injection h2 with h3 h4
        subst h3; subst h4
        exact List.Perm.refl _
      | cons y ys =>
        rcases pqPop_of_nonempty y ys with ⟨x2, hx2⟩
        rw [hx2] at hr
        cases hr
    · unfold pqPop at h
      rw [hr] at h
      dsimp only at h
      by_cases hle : x.1 ≤ m.1.1
      · rw [if_pos hle] at h
        injection h with h2
        injection h2 with h3 h4
        subst h3; subst h4
        exact List.Perm.refl _
      · rw [if_neg hle] at h
        injection h with h2
        injection h2 with h3 h4
        subst h3; subst h4
        have hperm := ih m.1 m.2 (by rw [hr])
        exact List.Perm.trans (List.Perm.cons x hperm) (List.Perm.swap m.1 x m.2)

theorem pqPop_min {σ : Type} :
    ∀ (F : PQueue σ) (e : ℚ × Node σ) (F1 : PQueue σ),
      pqPop F = some (e, F1) → ∀ e2 ∈ F, e.1 ≤ e2.1 := by
  intro F
  induction F with
  | nil => intro e F1 h; cases h
  | cons x rest ih =>
    intro e F1 h e2 he2
    rcases hr : pqPop rest with _ | m
    · unfold pqPop at h
      rw [hr] at h
      cases rest with
      | nil =>
        injection h with h2
        injection h2 with h3 h4
        subst h3
        rcases List.mem_cons.mp he2 with h5 | h5
        · subst h5; exact le_refl _
        · cases h5
      | cons y ys =>
        rcases pqPop_of_nonempty y ys with ⟨x2, hx2⟩
        rw [hx2] at hr
        cases hr
    · unfold pqPop at h
      rw [hr] at h
      dsimp only at h
      have hmin := ih m.1 m.2 (by rw [hr])
      by_cases hle : x.1 ≤ m.1.1
      · rw [if_pos hle] at h
        injection h with h2
        injection h2 with h3 h4
        subst h3
        rcases List.mem_cons.mp he2 with h5 | h5
        · subst h5; exact le_refl _
        · exact le_trans hle (hmin e2 h5)
      · rw [if_neg hle] at h
        injection h with h2
        injection h2 with h3 h4
        subst h3
        rcases List.mem_cons.mp he2 with h5 | h5
        · subst h5; exact le_of_lt (lt_of_not_le hle)
        · exact hmin e2 h5

theorem pqLookup_none_iff {σ : Type} [DecidableEq σ] (F : PQueue σ) (s : σ) :
    pqLookup F s = none ↔ ¬ s ∈ pqStates F := by
  unfold pqLookup pqStates
  rw [Option.map_eq_none', List.find?_eq_none]
  constructor
  · intro h hmem
    rcases List.mem_map.mp hmem with ⟨e, he, hes⟩
    have h2 := h e he
    simp [hes] at h2
  · intro h e he
    simp only [decide_eq_true_eq]
    intro hes
    exact h (List.mem_map.mpr ⟨e, he, hes⟩)

theorem pqLookup_some_mem {σ : Type} [DecidableEq σ] (F : PQueue σ) (s : σ) (v : ℚ) :
    pqLookup F s = some v → ∃ e ∈ F, e.2.state = s ∧ e.1 = v := by
  unfold pqLookup
  intro h
  rcases Option.map_eq_some'.mp h with ⟨e, he, hev⟩
  refine ⟨e, List.mem_of_find?_eq_some he, ?_, hev⟩
  have h3 := List.find?_some he
  simpa using h3

theorem pqLookup_isSome_iff {σ : Type} [DecidableEq σ] (F : PQueue σ) (s : σ) :
    (pqLookup F s).isSome = true ↔ s ∈ pqStates F := by
  constructor
  · intro h
    rcases Option.isSome_iff_exists.mp h with ⟨v, hv⟩
    rcases pqLookup_some_mem F s v hv with ⟨e, he, hes, _⟩
    exact List.mem_map.mpr ⟨e, he, hes⟩
  · intro h
    cases ho : pqLookup F s with
    | none => exact absurd h ((pqLookup_none_iff F s).mp ho)
    | some v => simp [ho]

/-- With duplicate-free frontier states, the lookup of a member entry's
state returns that entry's value. -/
theorem pqLookup_of_nodup {σ : Type} [DecidableEq σ] :
    ∀ (F : PQueue σ), (pqStates F).Nodup → ∀ e ∈ F, pqLookup F e.2.state = some e.1 := by
  intro F
  induction F with
  | nil => intro _ e he; cases he
  | cons x rest ih =>
    intro hnd e he
    have hnd2 : (pqStates rest).Nodup := (List.nodup_cons.mp hnd).2
    have hx : ¬ x.2.state ∈ pqStates rest := (List.nodup_cons.mp hnd).1
    rcases List.mem_cons.mp he with h | h
    · subst h
      unfold pqLookup
      simp [List.find?]
    · have hne : ¬ x.2.state = e.2.state := by
        intro hcontra
        exact hx (hcontra ▸ List.mem_map.mpr ⟨e, h, rfl⟩)
      have hb : (decide (x.2.state = e.2.state)) = false := by simp [hne]
      have hstep : pqLookup (x :: rest) e.2.state = pqLookup rest e.2.state := by
        unfold pqLookup
        rw [List.find?_cons, hb]
      rw [hstep]
      exact ih hnd2 e h

/-- Exhaustive case analysis of the frontier update: fresh append, strict
replacement, tie/worse discard, or explored-and-absent discard. -/
theorem bfUpdate_cases {σ : Type} [DecidableEq σ] (f : Node σ → ℚ) (E : List σ)
    (F : PQueue σ) (c : Node σ) :
    (¬ c.state ∈ E ∧ pqLookup F c.state = none ∧
      bfUpdate f E F c = F ++ [(f c, c)]) ∨
    (∃ v, pqLookup F c.state = some v ∧ f c < v ∧
      bfUpdate f E F c = pqDelete F c.state ++ [(f c, c)]) ∨
    (∃ v, pqLookup F c.state = some v ∧ v ≤ f c ∧ bfUpdate f E F c = F) ∨
    (c.state ∈ E ∧ pqLookup F c.state = none ∧ bfUpdate f E F c = F) := by
  rcases ho : pqLookup F c.state with _ | v
  · by_cases hE : c.state ∈ E
    · exact Or.inr (Or.inr (Or.inr ⟨hE, rfl, by simp [bfUpdate, ho, hE]⟩))
    · exact Or.inl ⟨hE, rfl, by simp [bfUpdate, ho, hE]⟩
  · by_cases hlt : f c < v
    · refine Or.inr (Or.inl ⟨v, rfl, hlt, ?_⟩)
      simp [bfUpdate, ho, not_le.mpr hlt]
    · refine Or.inr (Or.inr (Or.inl ⟨v, rfl, not_lt.mp hlt, ?_⟩))
      simp [bfUpdate, ho, not_lt.mp hlt]

theorem pqDelete_mem {σ : Type} [DecidableEq σ] (F : PQueue σ) (s : σ) :
    ∀ e ∈ pqDelete F s, e ∈ F :=
  fun e he => (List.eraseP_sublist F).subset he

theorem pqStates_append {σ : Type} (F G : PQueue σ) :
    pqStates (F ++ G) = pqStates F ++ pqStates G :=
  List.map_append _ F G

theorem pqDelete_states_nodup {σ : Type} [DecidableEq σ] (F : PQueue σ) (s : σ)
    (hnd : (pqStates F).Nodup) : (pqStates (pqDelete F s)).Nodup :=
  hnd.sublist (List.Sublist.map _ (List.eraseP_sublist F))

theorem pqDelete_not_mem_states {σ : Type} [DecidableEq σ] :
    ∀ (F : PQueue σ) (s : σ), (pqStates F).Nodup →
      ¬ s ∈ pqStates (pqDelete F s) := by
  intro F
  induction F with
  | nil =>
    intro s _ h
    cases h
  | cons x rest ih =>
    intro s hnd
    have hx : ¬ x.2.state ∈ pqStates rest := (List.nodup_cons.mp hnd).1
    have hnd2 : (pqStates rest).Nodup := (List.nodup_cons.mp hnd).2
    by_cases hxs : x.2.state = s
    · have hdel : pqDelete (x :: rest) s = rest := by
        unfold pqDelete
        rw [List.eraseP_cons]
        simp [hxs]
      rw [hdel]
      rw [← hxs]
      exact hx
    · have hdel : pqDelete (x :: rest) s = x :: pqDelete rest s := by
        unfold pqDelete
        rw [List.eraseP_cons]
        simp [hxs]
      rw [hdel]
      intro hmem
      rcases List.mem_cons.mp hmem with h | h
      · exact hxs h.symm
      · exact ih s hnd2 h

theorem bfUpdate_mem {σ : Type} [DecidableEq σ] (f : Node σ → ℚ) (E : List σ)
    (F : PQueue σ) (c : Node σ) :
    ∀ e ∈ bfUpdate f E F c, e ∈ F ∨ e = (f c, c) := by
  intro e he
  rcases bfUpdate_cases f E F c with ⟨_, _, h⟩ | ⟨v, _, _, h⟩ | ⟨v, _, _, h⟩ |
    ⟨_, _, h⟩ <;> rw [h] at he
  · rcases List.mem_append.mp he with h2 | h2
    · exact Or.inl h2
    · simp at h2
      exact Or.inr h2
  · rcases List.mem_append.mp he with h2 | h2
    · exact Or.inl (pqDelete_mem F c.state e h2)
    · simp at h2
      exact Or.inr h2
  · exact Or.inl he
  · exact Or.inl he

theorem bfUpdate_nodup {σ : Type} [DecidableEq σ] (f : Node σ → ℚ) (E : List σ)
    (F : PQueue σ) (c : Node σ) (hnd : (pqStates F).Nodup) :
    (pqStates (bfUpdate f E F c)).Nodup := by
  rcases bfUpdate_cases f E F c with ⟨_, ho, h⟩ | ⟨v, ho, _, h⟩ | ⟨v, _, _, h⟩ |
    ⟨_, _, h⟩ <;> rw [h]
  · rw [pqStates_append]
    rw [List.nodup_append]
    refine ⟨hnd, by simp [pqStates], ?_⟩
    intro a ha hb
    simp [pqStates] at hb
    subst hb
    exact (pqLookup_none_iff F c.state).mp ho ha
  · rw [pqStates_append]
    rw [List.nodup_append]
    refine ⟨pqDelete_states_nodup F c.state hnd, by simp [pqStates], ?_⟩
    intro a ha hb
    simp [pqStates] at hb
    subst hb
    exact pqDelete_not_mem_states F c.state hnd ha
  · exact hnd
  · exact hnd

theorem bfUpdate_states_not_mem {σ : Type} [DecidableEq σ] (f : Node σ → ℚ)
    (E : List σ) (F : PQueue σ) (c : Node σ)
    (hF : ∀ e ∈ F, ¬ e.2.state ∈ E) :
    ∀ e ∈ bfUpdate f E F c, ¬ e.2.state ∈ E := by
  intro e he
  rcases bfUpdate_mem f E F c e he with h | h
  · exact hF e h
  · subst h
    rcases bfUpdate_cases f E F c with ⟨hE, _, _⟩ | ⟨v, ho, _, _⟩ | ⟨v, ho, _, h2⟩ |
      ⟨hE, ho, h2⟩
    · exact hE
    · rcases pqLookup_some_mem F c.state v ho with ⟨e0, he0, hs0, _⟩
      exact fun hmem => hF e0 he0 (hs0 ▸ hmem)
    · rcases pqLookup_some_mem F c.state v ho with ⟨e0, he0, hs0, _⟩
      exact fun hmem => hF e0 he0 (hs0 ▸ hmem)
    · rw [h2] at he
      exact hF _ he

theorem bfUpdate_cover {σ : Type} [DecidableEq σ] (f : Node σ → ℚ) (E : List σ)
    (F : PQueue σ) (c : Node σ) (hnd : (pqStates F).Nodup) (s : σ) (w : ℚ)
    (hcov : ∃ e ∈ F, e.2.state = s ∧ e.1 ≤ w) :
    ∃ e ∈ bfUpdate f E F c, e.2.state = s ∧ e.1 ≤ w := by
  rcases hcov with ⟨e0, he0, hs0, hw0⟩
  rcases bfUpdate_cases f E F c with ⟨_, _, h⟩ | ⟨v, hv, hlt, h⟩ | ⟨v, _, _, h⟩ |
    ⟨_, _, h⟩ <;> rw [h]
  · exact ⟨e0, List.mem_append_left _ he0, hs0, hw0⟩
  · by_cases hse : s = c.state
    · have hv0 : pqLookup F c.state = some e0.1 := by
        rw [← hse, ← hs0]
        exact pqLookup_of_nodup F hnd e0 he0
      rw [hv] at hv0
      injection hv0 with hv0
      refine ⟨(f c, c), List.mem_append_right _ (by simp), hse.symm, ?_⟩
      calc f c ≤ v := le_of_lt hlt
        _ = e0.1 := hv0
        _ ≤ w := hw0
    · refine ⟨e0, List.mem_append_left _ ?_, hs0, hw0⟩
      unfold pqDelete
      rw [List.mem_eraseP_of_neg]
      · exact he0
      · simp [hs0, hse]
  · exact ⟨e0, he0, hs0, hw0⟩
  · exact ⟨e0, he0, hs0, hw0⟩

theorem bfUpdate_self_cover {σ : Type} [DecidableEq σ] (f : Node σ → ℚ)
    (E : List σ) (F : PQueue σ) (c : Node σ) (hcE : ¬ c.state ∈ E) :
    ∃ e ∈ bfUpdate f E F c, e.2.state = c.state ∧ e.1 ≤ f c := by
  rcases bfUpdate_cases f E F c with ⟨_, _, h⟩ | ⟨v, hv, hlt, h⟩ | ⟨v, hv, hle, h⟩ |
    ⟨hE, _, _⟩
  · exact ⟨(f c, c), h ▸ List.mem_append_right _ (by simp), rfl, le_refl _⟩
  · exact ⟨(f c, c), h ▸ List.mem_append_right _ (by simp), rfl, le_refl _⟩
  · rcases pqLookup_some_mem F c.state v hv with ⟨e0, he0, hs0, hval⟩
    exact ⟨e0, by rw [h]; exact he0, hs0, hval.le.trans hle⟩
  · exact absurd hE hcE

theorem foldl_bfUpdate_mem {σ : Type} [DecidableEq σ] (f : Node σ → ℚ)
    (E : List σ) :
    ∀ (cs : List (Node σ)) (F : PQueue σ), ∀ e ∈ cs.foldl (bfUpdate f E) F,
      e ∈ F ∨ ∃ c ∈ cs, e = (f c, c) := by
  intro cs
  induction cs with
  | nil => exact fun F e he => Or.inl he
  | cons c cs ih =>
    intro F e he
    rcases ih (bfUpdate f E F c) e he with h | ⟨c2, hc2, h⟩
    · rcases bfUpdate_mem f E F c e h with h2 | h2
      · exact Or.inl h2
      · exact Or.inr ⟨c, List.mem_cons_self c cs, h2⟩
    · exact Or.inr ⟨c2, List.mem_cons_of_mem c hc2, h⟩

theorem foldl_bfUpdate_nodup {σ : Type} [DecidableEq σ] (f : Node σ → ℚ)
    (E : List σ) :
    ∀ (cs : List (Node σ)) (F : PQueue σ), (pqStates F).Nodup →
      (pqStates (cs.foldl (bfUpdate f E) F)).Nodup := by
  intro cs
  induction cs with
  | nil => exact fun F h => h
  | cons c cs ih => exact fun F h => ih _ (bfUpdate_nodup f E F c h)

theorem foldl_bfUpdate_not_mem_E {σ : Type} [DecidableEq σ] (f : Node σ → ℚ)
    (E : List σ) :
    ∀ (cs : List (Node σ)) (F : PQueue σ), (∀ e ∈ F, ¬ e.2.state ∈ E) →
      ∀ e ∈ cs.foldl (bfUpdate f E) F, ¬ e.2.state ∈ E := by
  intro cs
  induction cs with
  | nil => exact fun F h => h
  | cons c cs ih => exact fun F h => ih _ (bfUpdate_states_not_mem f E F c h)

theorem foldl_bfUpdate_cover {σ : Type} [DecidableEq σ] (f : Node σ → ℚ)
    (E : List σ) :
    ∀ (cs : List (Node σ)) (F : PQueue σ), (pqStates F).Nodup →
      ∀ (s : σ) (w : ℚ), (∃ e ∈ F, e.2.state = s ∧ e.1 ≤ w) →
      ∃ e ∈ cs.foldl (bfUpdate f E) F, e.2.state = s ∧ e.1 ≤ w := by
  intro cs
  induction cs with
  | nil => exact fun F _ s w h => h
  | cons c cs ih =>
    intro F hnd s w h
    exact ih _ (bfUpdate_nodup f E F c hnd) s w (bfUpdate_cover f E F c hnd s w h)

theorem foldl_bfUpdate_self_cover {σ : Type} [DecidableEq σ] (f : Node σ → ℚ)
    (E : List σ) :
    ∀ (cs : List (Node σ)) (F : PQueue σ), (pqStates F).Nodup →
      ∀ c ∈ cs, ¬ c.state ∈ E →
      ∃ e ∈ cs.foldl (bfUpdate f E) F, e.2.state = c.state ∧ e.1 ≤ f c := by
  intro cs
  induction cs with
  | nil =>
    intro F _ c hc
    cases hc
  | cons c0 cs ih =>
    intro F hnd c hc hcE
    rcases List.mem_cons.mp hc with h | h
    · subst h
      exact foldl_bfUpdate_cover f E cs _ (bfUpdate_nodup f E F c hnd) c.state (f c)
        (bfUpdate_self_cover f E F c hcE)
    · exact ih _ (bfUpdate_nodup f E F c0 hnd) c h hcE

theorem foldl_min_attained {α β : Type} [LinearOrder α] (g : β → α) :
    ∀ (l : List β) (init : α),
      l.foldl (fun m r => min m (g r)) init = init ∨
        ∃ r ∈ l, l.foldl (fun m r => min m (g r)) init = g r := by
  intro l
  induction l with
  | nil => intro init; exact Or.inl rfl
  | cons x xs ih =>
    intro init
    rcases ih (min init (g x)) with h | ⟨r, hr, h⟩
    · rcases min_cases init (g x) with ⟨hm, _⟩ | ⟨hm, _⟩
      · exact Or.inl (by rw [List.foldl_cons, h, hm])
      · exact Or.inr ⟨x, List.mem_cons_self x xs, by rw [List.foldl_cons, h, hm]⟩
    · exact Or.inr ⟨r, List.mem_cons_of_mem x hr, h⟩

theorem sortLeftFirst_perm (l : List Action) : (sortLeftFirst l).Perm l := by
  have h := List.filter_append_perm (fun a => decide (a = Action.LEFT)) l
  unfold sortLeftFirst
  refine List.Perm.trans ?_ h
  apply List.Perm.append_left
  apply List.Perm.of_eq
  apply List.filter_congr
  intro a _
  cases a <;> rfl

theorem expand_mem {σ : Type} (p : SearchProb σ) (n : Node σ) (c : Node σ) :
    c ∈ Node.expand p n ↔ ∃ a ∈ p.actions n.state, c = child_node p n a := by
  unfold Node.expand
  rw [List.mem_map]
  constructor
  · rintro ⟨a, ha, rfl⟩
    exact ⟨a, (sortLeftFirst_perm _).mem_iff.mp ha, rfl⟩
  · rintro ⟨a, ha, rfl⟩
    exact ⟨a, (sortLeftFirst_perm _).mem_iff.mpr ha, rfl⟩

/-! ## Claim theorems -/

/-- C9: `computeTurnCost` returns 0 whenever either argument is not one of
the four directions (in particular for the root's `None` action); on two
directions it returns 3 times the minimal rotation distance on the 4-cycle
UP, RIGHT, DOWN, LEFT; its value is always 0, 3 or 6; and it is symmetric. -/
theorem computeTurnCost_spec :
    (∀ a b : Option Action,
      (computeTurnCost a b = 0 ∨ computeTurnCost a b = 3 ∨ computeTurnCost a b = 6) ∧
      computeTurnCost a b = computeTurnCost b a) ∧
    (∀ b : Option Action, computeTurnCost none b = 0 ∧ computeTurnCost b none = 0) ∧
    (∀ d1 d2 : Action,
      computeTurnCost (some d1) (some d2) =
        3 * min (dirIndex d2 - dirIndex d1).natAbs
          (4 - (dirIndex d2 - dirIndex d1).natAbs)) := by
  refine ⟨?_, ?_, ?_⟩ <;> decide

/-- C3 counterexample: `VacuumPlanning.result` does not leave the agent
unchanged — called with the agent facing UP and the action RIGHT, it sets
the agent's direction to RIGHT. -/
theorem result_mutates_agent_direction :
    (VacuumPlanning.result Action.UP ((0 : Int), (0 : Int)) Action.RIGHT).2 =
      Action.RIGHT ∧
    ¬ (VacuumPlanning.result Action.UP ((0 : Int), (0 : Int)) Action.RIGHT).2 =
      Action.UP := by
  decide

/-- C3 amended: `result(state, action)` deterministically returns the
successor state — the returned state depends only on (state, action), so two
calls with the same arguments yield the same state — but it is not free of
side effects: it sets the agent's direction to the action. -/
theorem result_deterministic_state_only :
    ∀ (d d2 : Action) (s : Int × Int) (a : Action),
      (VacuumPlanning.result d s a).1 = (VacuumPlanning.result d2 s a).1 ∧
      (VacuumPlanning.result d s a).2 = a := by
  intro d d2 s a
  exact ⟨rfl, rfl⟩

/-- C10: under the StayUp cost function the per-step cost added is
1 plus the y-coordinate of `state2` divided by the map size, plus 5 for a
DOWN action exactly when the environment's search type is UCS; consequently
the accumulated cost of the action sequence [DOWN] from (1,1) differs
between the UCS and the A* configuration of the same StayUp environment. -/
theorem path_cost_StayUp_spec :
    (∀ (env : VEnv) (c : ℚ) (ca : Option Action) (s1 : Int × Int) (a : Action)
        (s2 : Int × Int), env.costFunc = "StayUp" →
      VacuumPlanning.path_cost env c ca s1 a s2 =
        (c + 1) + (s2.2 : ℚ) / (env.mapLen : ℚ) +
          (if env.searchType = "UCS" ∧ a = Action.DOWN then 5 else 0)) ∧
    ¬ (accumNode (vpProbFree envStayUpUCS (1, 1)) (Node.root (1, 1))
        [Action.DOWN]).path_cost =
      (accumNode (vpProbFree envStayUpAstar (1, 1)) (Node.root (1, 1))
        [Action.DOWN]).path_cost := by
  constructor
  · intro env c ca s1 a s2 hcf
    by_cases hsd : env.searchType = "UCS" ∧ a = Action.DOWN <;>
      simp [VacuumPlanning.path_cost, hcf, hsd]
  · intro h
    simp only [accumNode, child_node, vpProbFree, VacuumPlanning.path_cost,
      VacuumPlanning.result, envStayUpUCS, envStayUpAstar, Node.path_cost,
      Node.state, Node.act] at h
    norm_num at h
    simp at h

/-- C10 witness: the StayUp per-step formula evaluated on the UCS
environment at the step (1,1) --DOWN--> (1,0). -/
theorem path_cost_StayUp_spec_witness :
    VacuumPlanning.path_cost envStayUpUCS 0 none (1, 1) Action.DOWN (1, 0) =
      ((0 : ℚ) + 1) + (((1, (0 : Int)).2 : Int) : ℚ) / (envStayUpUCS.mapLen : ℚ) +
        (if envStayUpUCS.searchType = "UCS" ∧ Action.DOWN = Action.DOWN then 5 else 0) :=
  path_cost_StayUp_spec.1 envStayUpUCS 0 none (1, 1) Action.DOWN (1, 0) rfl

/-- C6: `VacuumPlanning.h` returns the minimum distance — Manhattan or
squared Euclidean, according to the configured selector — from the node's
state to the nearest remaining dirty room, and 0 when no dirty room exists:
its value is attained at some dirty room and is a lower bound over all of
them. -/
theorem h_min_dist_spec :
    ∀ (env : VEnv) (node : Node (Int × Int)),
      (env.dirtyRooms = [] → VacuumPlanning.h env node = 0) ∧
      (env.dirtyRooms ≠ [] →
        (∃ room ∈ env.dirtyRooms,
          VacuumPlanning.h env node = selDist env node.state room) ∧
        (∀ room ∈ env.dirtyRooms,
          VacuumPlanning.h env node ≤ selDist env node.state room)) := by
  intro env node
  constructor
  · intro hnil
    by_cases hm : env.heuristicArg = "Manhattan" <;>
      simp [VacuumPlanning.h, hm, hnil, findMinManhattanDist, findMinEuclidDist]
  · intro hne
    rcases hlist : env.dirtyRooms with _ | ⟨r, rs⟩
    · exact absurd hlist hne
    have hsel : ∀ (g : (Int × Int) → (Int × Int) → Int),
        (∃ room ∈ r :: rs,
          (rs.foldl (fun m room => min m (g node.state room)) (g node.state r)) =
            g node.state room) ∧
        (∀ room ∈ r :: rs,
          (rs.foldl (fun m room => min m (g node.state room)) (g node.state r)) ≤
            g node.state room) := by
      intro g
      constructor
      · rcases foldl_min_attained (g node.state) rs (g node.state r) with h | ⟨room, hm, h⟩
        · exact ⟨r, List.mem_cons_self r rs, h⟩
        · exact ⟨room, List.mem_cons_of_mem r hm, h⟩
      · intro room hm
        rcases List.mem_cons.mp hm with h | h
        · subst h
          exact (foldl_min_le (g node.state) rs (g node.state room)).1
        · exact (foldl_min_le (g node.state) rs (g node.state r)).2 room h
    by_cases hm : env.heuristicArg = "Manhattan"
    · simpa [VacuumPlanning.h, hm, selDist, hlist, findMinManhattanDist]
        using hsel manhattanDist
    · simpa [VacuumPlanning.h, hm, selDist, hlist, findMinEuclidDist]
        using hsel euclidSqDist

/-- C6 witness: the heuristic evaluated on the c5 environment (one dirty
room at (0,1)) at the root node (0,0). -/
theorem h_min_dist_spec_witness :
    ((c5Env.dirtyRooms = [] → VacuumPlanning.h c5Env (Node.root (0, 0)) = 0)) ∧
    (∃ room ∈ c5Env.dirtyRooms,
      VacuumPlanning.h c5Env (Node.root (0, 0)) =
        selDist c5Env (Node.root ((0 : Int), (0 : Int)) : Node (Int × Int)).state room) :=
  ⟨(h_min_dist_spec c5Env (Node.root (0, 0))).1,
    ((h_min_dist_spec c5Env (Node.root (0, 0))).2 (by decide)).1⟩

/-- C7: for every node built by repeated `child_node` construction from a
root, `Node.solution()` returns exactly `depth` many actions, and running
them through `problem.result` from the root's state reproduces the node's
state. -/
theorem solution_replays_to_state :
    ∀ {σ : Type} (p : SearchProb σ) (n : Node σ), BuiltFrom p n →
      n.solution.length = n.depth ∧
      runActions p n.rootState n.solution = n.state := by
  intro σ p n h
  induction h with
  | root s => exact ⟨rfl, rfl⟩
  | @child n a hb ih =>
    constructor
    · show (n.solution ++ [a]).length = n.depth + 1
      rw [List.length_append, ih.1]
      rfl
    · show runActions p n.rootState (n.solution ++ [a]) = p.result n.state a
      rw [runActions_append, ih.2]
      rfl

/-- C7 witness: the depth-2 node built by UP then RIGHT from the root (0,0)
of the c5 problem. -/
theorem solution_replays_to_state_witness :
    (child_node c5Prob (child_node c5Prob (Node.root (0, 0)) Action.UP)
        Action.RIGHT).solution.length =
      (child_node c5Prob (child_node c5Prob (Node.root (0, 0)) Action.UP)
        Action.RIGHT).depth ∧
    runActions c5Prob
        (child_node c5Prob (child_node c5Prob (Node.root (0, 0)) Action.UP)
          Action.RIGHT).rootState
        (child_node c5Prob (child_node c5Prob (Node.root (0, 0)) Action.UP)
          Action.RIGHT).solution =
      (child_node c5Prob (child_node c5Prob (Node.root (0, 0)) Action.UP)
        Action.RIGHT).state :=
  solution_replays_to_state c5Prob _
    (BuiltFrom.child Action.RIGHT (BuiltFrom.child Action.UP (BuiltFrom.root _)))

/-- C5: the reflex rule expands exactly one level (every returned node is one
of the expanded neighbors, a depth-1 child); when some neighbor satisfies
goal_test, the first such neighbor in expansion order is returned and the
random draw is not consulted (the outcome is the same for every draw); only
when no neighbor satisfies goal_test is the returned neighbor the uniformly
drawn one (index r mod the number of neighbors), with every neighbor the
outcome of some draw; in both cases the returned explored set is None. -/
theorem reflexAgentSearch_spec :
    ∀ {σ : Type} [inst : DecidableEq σ] (p : SearchProb σ) (r : Nat),
      ((reflexAgentSearch p r).2 = none) ∧
      (∀ n, (reflexAgentSearch p r).1 = some n →
        n ∈ Node.expand p (Node.root p.initial) ∧ n.depth = 1) ∧
      (∀ (i : Nat) (m : Node σ),
        (Node.expand p (Node.root p.initial)).get? i = some m →
        p.goal_test m.state = true →
        (∀ j, j < i → ∀ m2, (Node.expand p (Node.root p.initial)).get? j = some m2 →
          p.goal_test m2.state = false) →
        (reflexAgentSearch p r).1 = some m ∧
          ∀ r2, reflexAgentSearch p r2 = reflexAgentSearch p r) ∧
      ((∀ m ∈ Node.expand p (Node.root p.initial), p.goal_test m.state = false) →
        (reflexAgentSearch p r).1 =
          (Node.expand p (Node.root p.initial)).get?
            (r % (Node.expand p (Node.root p.initial)).length) ∧
        ∀ m ∈ Node.expand p (Node.root p.initial),
          ∃ r2, (reflexAgentSearch p r2).1 = some m) := by
  intro σ inst p r
  refine ⟨?_, ?_, ?_, ?_⟩
  · unfold reflexAgentSearch
    rcases h : (Node.expand p (Node.root p.initial)).find?
        (fun m => p.goal_test m.state) with _ | m <;> simp [h]
  · intro n hn
    unfold reflexAgentSearch at hn
    rcases h : (Node.expand p (Node.root p.initial)).find?
        (fun m => p.goal_test m.state) with _ | m
    · rw [h] at hn
      simp at hn
      have hmem := List.getElem?_mem hn
      refine ⟨hmem, ?_⟩
      rcases List.mem_map.mp hmem with ⟨a, _, ha⟩
      rw [← ha]
      rfl
    · rw [h] at hn
      simp at hn
      subst hn
      have hmem := List.mem_of_find?_eq_some h
      refine ⟨hmem, ?_⟩
      rcases List.mem_map.mp hmem with ⟨a, _, ha⟩
      rw [← ha]
      rfl
  · intro i m hm hq hprev
    have hfind : (Node.expand p (Node.root p.initial)).find?
        (fun m => p.goal_test m.state) = some m :=
      find?_first (fun m => p.goal_test m.state) _ i m hm hq hprev
    constructor
    · unfold reflexAgentSearch
      rw [hfind]
    · intro r2
      unfold reflexAgentSearch
      rw [hfind]
  · intro hnone
    have hfind : (Node.expand p (Node.root p.initial)).find?
        (fun m => p.goal_test m.state) = none := by
      rw [List.find?_eq_none]
      intro x hx
      simp [hnone x hx]
    constructor
    · unfold reflexAgentSearch
      rw [hfind]
    · intro m hmem
      rcases List.mem_iff_get?.mp hmem with ⟨i, hi⟩
      have hlen : i < (Node.expand p (Node.root p.initial)).length :=
        List.get?_eq_some.mp hi |>.1
      refine ⟨i, ?_⟩
      unfold reflexAgentSearch
      rw [hfind]
      simpa [Nat.mod_eq_of_lt hlen] using hi

/-- C5 witness: on the wall-free problem with the single dirty room (0,1),
the UP child is at index 1 of the expansion (after the preferred LEFT child,
which is not a goal), and the reflex rule returns it for the draw r = 0. -/
theorem reflexAgentSearch_spec_witness :
    (reflexAgentSearch c5Prob 0).1 =
      some (child_node c5Prob (Node.root (0, 0)) Action.UP) ∧
    ∀ r2, reflexAgentSearch c5Prob r2 = reflexAgentSearch c5Prob 0 :=
  (reflexAgentSearch_spec c5Prob 0).2.2.1 1
    (child_node c5Prob (Node.root (0, 0)) Action.UP) rfl rfl
    (by
      intro j hj m2 hm2
      have hj0 : j = 0 := Nat.lt_one_iff.mp hj
      subst hj0
      have hm2e : child_node c5Prob (Node.root (0, 0)) Action.LEFT = m2 := by
        injection hm2
      rw [← hm2e]
      rfl)

/-- C1 counterexample: with f = path_cost, the frontier [(5, c1Old)] holds
state 7 with f value 5; the newly generated child c1Child has the same state
and an equal f value 5, so the claim requires the existing entry to be
removed and the child inserted in its place; but the frontier-update step of
best_first_graph_search leaves the frontier unchanged — the child is
discarded even though the existing entry is not strictly better. -/
theorem bfUpdate_discards_equal_f :
    Node.path_cost c1Child = 5 ∧
    c1Child.state = c1Old.state ∧
    pqLookup [((5 : ℚ), c1Old)] c1Child.state = some 5 ∧
    bfUpdate Node.path_cost [] [((5 : ℚ), c1Old)] c1Child = [((5 : ℚ), c1Old)] ∧
    ¬ c1Child = c1Old := by
  refine ⟨rfl, rfl, rfl, ?_, by intro h; cases h⟩
  simp [bfUpdate, pqLookup, c1Old, c1Child, Node.state, Node.path_cost]

/-- C1 amended: when a newly generated child's state is already present in
the frontier, the existing entry is removed and the child inserted in its
place only when the existing entry's f value is STRICTLY worse (greater)
than the child's f value; when the existing entry's f value is better or
equal, the child is discarded and the frontier is unchanged; a child whose
state is on neither the explored set nor the frontier is appended. -/
theorem bfUpdate_replacement_rule :
    ∀ {σ : Type} [inst : DecidableEq σ] (f : Node σ → ℚ) (E : List σ)
      (F : PQueue σ) (c : Node σ),
      (∀ v : ℚ, pqLookup F c.state = some v →
        (f c < v → bfUpdate f E F c = pqDelete F c.state ++ [(f c, c)]) ∧
        (v ≤ f c → bfUpdate f E F c = F)) ∧
      (pqLookup F c.state = none → ¬ c.state ∈ E →
        bfUpdate f E F c = F ++ [(f c, c)]) := by
  intro σ inst f E F c
  constructor
  · intro v hv
    constructor
    · intro hlt
      simp [bfUpdate, hv, not_le.mpr hlt]
    · intro hle
      simp [bfUpdate, hv, not_lt.mpr hle]
  · intro hv hE
    simp [bfUpdate, hv, hE]

/-- C1 witness: the strictly-worse and better-or-equal branches of the
replacement rule evaluated on the concrete frontier [(5, c1Old)]. -/
theorem bfUpdate_replacement_rule_witness :
    bfUpdate Node.path_cost [] [((5 : ℚ), c1Old)] c1Child = [((5 : ℚ), c1Old)] :=
  ((bfUpdate_replacement_rule Node.path_cost [] [((5 : ℚ), c1Old)] c1Child).1 5
    rfl).2 (le_refl 5)

/-- C2 counterexample: on the wall-free vacuum problem with dirt at the UP
neighbor (0,1) and the LEFT neighbor (-1,0) of the agent cell (0,0),
breadth-first graph search generates the UP child first and returns it,
although the deterministic child ordering of Node.expand puts the LEFT child
— itself a goal — first: BFS does not generate children in Node.expand's
LEFT-preferred order. -/
theorem bfs_not_in_expand_order :
    (breadth_first_graph_search c2Prob 2).1 =
      some (child_node c2Prob (Node.root (0, 0)) Action.UP) ∧
    (Node.expand c2Prob (Node.root (0, 0))).get? 0 =
      some (child_node c2Prob (Node.root (0, 0)) Action.LEFT) ∧
    c2Prob.goal_test (child_node c2Prob (Node.root (0, 0)) Action.LEFT).state = true ∧
    ¬ (child_node c2Prob (Node.root (0, 0)) Action.UP) =
      (child_node c2Prob (Node.root (0, 0)) Action.LEFT) := by
  refine ⟨rfl, rfl, rfl, ?_⟩
  intro h
  have h2 := congrArg Node.state h
  rw [child_node_state, child_node_state] at h2
  exact absurd h2 (by decide)

/-- C2 amended: Node.expand generates children in the deterministic
preferred-action order — a permutation of problem.actions with every LEFT
entry first and all other actions keeping their relative order — and this is
the ordering best-first search and the reflex rule expand with; breadth-first
and depth-first graph search, however, generate children directly in
problem.actions order without the LEFT-first reordering, as the run on
c2Prob returning the UP child (not the goal LEFT child that Node.expand
would put first) shows. -/
theorem expand_order_spec :
    (∀ {σ : Type} (p : SearchProb σ) (n : Node σ),
      (Node.expand p n).map Node.act =
        (sortLeftFirst (p.actions n.state)).map some) ∧
    (∀ l : List Action, (sortLeftFirst l).Perm l) ∧
    (∀ l : List Action,
      (sortLeftFirst l).filter (fun a => decide (¬ a = Action.LEFT)) =
        l.filter (fun a => decide (¬ a = Action.LEFT))) ∧
    (∀ l : List Action, Action.LEFT ∈ l →
      (sortLeftFirst l).get? 0 = some Action.LEFT) ∧
    (breadth_first_graph_search c2Prob 2).1 =
      some (child_node c2Prob (Node.root (0, 0)) Action.UP) := by
  refine ⟨?_, ?_, ?_, ?_, rfl⟩
  · intro σ p n
    unfold Node.expand
    rw [List.map_map]
    rfl
  · exact sortLeftFirst_perm
  · intro l
    unfold sortLeftFirst
    rw [List.filter_append]
    rw [List.filter_filter, List.filter_filter]
    have h1 : ∀ a : Action,
        (decide (¬ a = Action.LEFT) && decide (a = Action.LEFT)) = false := by
      decide
    have h2 : ∀ a : Action,
        (decide (¬ a = Action.LEFT) && decide (¬ a = Action.LEFT)) =
          decide (¬ a = Action.LEFT) := by
      decide
    rw [List.filter_congr (fun a _ => h1 a), List.filter_congr (fun a _ => h2 a)]
    simp
  · intro l hl
    induction l with
    | nil => cases hl
    | cons x xs ih =>
      rcases List.mem_cons.mp hl with h | h
      · subst h
        rfl
      · cases hx : decide (x = Action.LEFT)
        · have : sortLeftFirst (x :: xs) =
              xs.filter (fun a => decide (a = Action.LEFT)) ++
                (x :: xs).filter (fun a => decide (¬ a = Action.LEFT)) := by
            unfold sortLeftFirst
            rw [List.filter_cons_of_neg]
            simp [hx]
          rw [this]
          have hxs := ih h
          unfold sortLeftFirst at hxs
          rcases hf : xs.filter (fun a => decide (a = Action.LEFT)) with _ | ⟨y, ys⟩
          · rw [hf] at hxs
            simp at hxs
            have : Action.LEFT ∈ xs.filter (fun a => decide (a = Action.LEFT)) :=
              List.mem_filter.mpr ⟨h, by decide⟩
            rw [hf] at this
            cases this
          · rw [hf] at hxs
            simp at hxs ⊢
            exact hxs
        · have hxL : x = Action.LEFT := of_decide_eq_true hx
          subst hxL
          unfold sortLeftFirst
          rw [List.filter_cons_of_pos]
          · rfl
          · decide

/-- C2 amended witness: the preferred-first clause evaluated on the full
wall-free action list. -/
theorem expand_order_spec_witness :
    (sortLeftFirst [Action.UP, Action.DOWN, Action.LEFT, Action.RIGHT]).get? 0 =
      some Action.LEFT :=
  expand_order_spec.2.2.2.1 [Action.UP, Action.DOWN, Action.LEFT, Action.RIGHT]
    (by decide)

/-- C8 counterexample: when the initial state already satisfies goal_test,
best-first graph search returns an EMPTY explored set — not the singleton of
the root's state that breadth-first and depth-first return. -/
theorem best_first_root_goal_empty_explored :
    c8Prob.goal_test c8Prob.initial = true ∧
    (best_first_graph_search c8Prob Node.path_cost 1).1 = some (Node.root (0, 0)) ∧
    (best_first_graph_search c8Prob Node.path_cost 1).2 = [] ∧
    ¬ ((best_first_graph_search c8Prob Node.path_cost 1).2 = [c8Prob.initial]) ∧
    (breadth_first_graph_search c8Prob 1).2 = [c8Prob.initial] ∧
    (depth_first_graph_search c8Prob 1).2 = [c8Prob.initial] := by
  refine ⟨rfl, rfl, rfl, ?_, rfl, rfl⟩
  intro h
  cases h

/-- Every legal path to an unexplored state is guarded by a frontier entry
whose stored value is at most the path's cost (the classic Dijkstra
invariant consequence). -/
theorem ucs_guard {σ : Type} [DecidableEq σ] (p : SearchProb σ)
    (step : σ → Action → σ → ℚ) (R : Finset σ)
    (hstep : ∀ (s : σ) (a : Action) (s2 : σ), 0 ≤ step s a s2)
    (F : PQueue σ) (E : List σ) (D : σ → ℚ) (inv : UcsInv p step R F E D) :
    ∀ acts, legalFrom p p.initial acts = true →
      ¬ runActions p p.initial acts ∈ E →
      ∃ e ∈ F, e.1 ≤ pathCostOf p step p.initial acts := by
  intro acts
  induction acts using List.reverseRecOn with
  | nil =>
    intro _ hni
    rcases inv.rootCover with ⟨hE, _⟩ | ⟨e, he, _, hle⟩
    · exact absurd hE (by simpa [runActions] using hni)
    · exact ⟨e, he, by simpa [pathCostOf] using hle⟩
  | append_singleton l a ih =>
    intro hleg hni
    rw [legalFrom_snoc] at hleg
    simp only [Bool.and_eq_true, decide_eq_true_eq] at hleg
    rcases hleg with ⟨hleg1, hmem2⟩
    rw [runActions_snoc] at hni
    rw [pathCostOf_snoc]
    by_cases hE : runActions p p.initial l ∈ E
    · rcases inv.cover _ hE a hmem2 with ⟨hinE, _⟩ | ⟨e, he, _, hle⟩
      · exact absurd hinE hni
      · refine ⟨e, he, le_trans hle ?_⟩
        have hopt := inv.eOpt _ hE l hleg1 rfl
        linarith
    · rcases ih hleg1 hE with ⟨e, he, hle⟩
      refine ⟨e, he, le_trans hle ?_⟩
      have hpos := hstep (runActions p p.initial l) a
        (p.result (runActions p p.initial l) a)
      linarith

/-- One iteration of the uniform-cost loop preserves the invariant: popping
a minimal non-goal node, exploring its state at its path cost and folding
the frontier update over its expansion. -/
theorem ucs_step_inv {σ : Type} [DecidableEq σ] (p : SearchProb σ)
    (step : σ → Action → σ → ℚ) (R : Finset σ)
    (hpc : ∀ (c : ℚ) (ca : Option Action) (s1 : σ) (a : Action) (s2 : σ),
      p.path_cost c ca s1 a s2 = c + step s1 a s2)
    (hstep : ∀ (s : σ) (a : Action) (s2 : σ), 0 ≤ step s a s2)
    (hclosed : ∀ s ∈ R, ∀ a ∈ p.actions s, p.result s a ∈ R)
    (F : PQueue σ) (E : List σ) (D : σ → ℚ) (inv : UcsInv p step R F E D)
    (v : ℚ) (n : Node σ) (F1 : PQueue σ)
    (hpop : pqPop F = some ((v, n), F1))
    (hng : p.goal_test n.state = false) :
    UcsInv p step R
      ((Node.expand p n).foldl (bfUpdate Node.path_cost (E ++ [n.state])) F1)
      (E ++ [n.state])
      (Function.update D n.state n.path_cost) := by
  have hperm := pqPop_perm F (v, n) F1 hpop
  have hmin := pqPop_min F (v, n) F1 hpop
  have hmemF : (v, n) ∈ F := hperm.mem_iff.mpr (List.mem_cons_self _ _)
  have hvn : v = n.path_cost := (inv.entries _ hmemF).1
  have hreach : Reached p n := (inv.entries _ hmemF).2
  have hnR : n.state ∈ R := inv.statesR _ hmemF
  have hnE : ¬ n.state ∈ E := inv.disjoint _ hmemF
  have hstatesPerm : (pqStates F).Perm (n.state :: pqStates F1) := by
    have h2 := hperm.map (fun e : ℚ × Node σ => e.2.state)
    simpa [pqStates] using h2
  have hnd1 : (n.state :: pqStates F1).Nodup := hstatesPerm.nodup_iff.mp inv.statesNodup
  have hnotF1 : ¬ n.state ∈ pqStates F1 := (List.nodup_cons.mp hnd1).1
  have hndF1 : (pqStates F1).Nodup := (List.nodup_cons.mp hnd1).2
  have hF1sub : ∀ e ∈ F1, e ∈ F := fun e he =>
    hperm.mem_iff.mpr (List.mem_cons_of_mem _ he)
  have hnsol := reached_spec p step hpc n hreach
  have hmemE1 : ∀ s : σ, s ∈ E ++ [n.state] ↔ s ∈ E ∨ s = n.state := by
    intro s
    simp [List.mem_append]
  have hF1E1 : ∀ e ∈ F1, ¬ e.2.state ∈ E ++ [n.state] := by
    intro e he hmem
    rcases (hmemE1 e.2.state).mp hmem with h | h
    · exact inv.disjoint e (hF1sub e he) h
    · exact hnotF1 (h ▸ List.mem_map.mpr ⟨e, he, rfl⟩)
  have hpopOnly : ∀ e ∈ F, e.2.state = n.state → e = (v, n) := by
    intro e he hes
    rcases List.mem_cons.mp (hperm.mem_iff.mp he) with h | h
    · exact h
    · exact absurd (hes ▸ List.mem_map.mpr ⟨e, h, rfl⟩) hnotF1
  have hchild : ∀ a ∈ p.actions n.state, child_node p n a ∈ Node.expand p n :=
    fun a ha => (expand_mem p n (child_node p n a)).mpr ⟨a, ha, rfl⟩
  have hccost : ∀ a ∈ p.actions n.state,
      Node.path_cost (child_node p n a) =
        n.path_cost + step n.state a (p.result n.state a) := by
    intro a _
    rw [child_node_cost, hpc]
  have hnopt : ∀ acts, legalFrom p p.initial acts = true →
      runActions p p.initial acts = n.state →
      n.path_cost ≤ pathCostOf p step p.initial acts := by
    intro acts hleg hrun
    have hni : ¬ runActions p p.initial acts ∈ E := by
      rw [hrun]
      exact hnE
    rcases ucs_guard p step R hstep F E D inv acts hleg hni with ⟨e, he, hle⟩
    calc n.path_cost = v := hvn.symm
      _ ≤ e.1 := hmin e he
      _ ≤ pathCostOf p step p.initial acts := hle
  have hDold : ∀ s2, s2 ∈ E → Function.update D n.state n.path_cost s2 = D s2 := by
    intro s2 hs2
    have hne : ¬ s2 = n.state := fun h2 => hnE (h2 ▸ hs2)
    rw [Function.update_noteq hne]
  refine ⟨?_, ?_, ?_, ?_, ?_, ?_, ?_, ?_, ?_, ?_, ?_⟩
  · -- entries
    intro e he
    rcases foldl_bfUpdate_mem Node.path_cost (E ++ [n.state]) _ F1 e he with h | ⟨c, hc, rfl⟩
    · exact inv.entries e (hF1sub e h)
    · rcases (expand_mem p n c).mp hc with ⟨a, ha, rfl⟩
      exact ⟨rfl, Reached.child hreach ha⟩
  · -- statesNodup
    exact foldl_bfUpdate_nodup Node.path_cost (E ++ [n.state]) _ F1 hndF1
  · -- statesR
    intro e he
    rcases foldl_bfUpdate_mem Node.path_cost (E ++ [n.state]) _ F1 e he with h | ⟨c, hc, rfl⟩
    · exact inv.statesR e (hF1sub e h)
    · rcases (expand_mem p n c).mp hc with ⟨a, ha, rfl⟩
      rw [child_node_state]
      exact hclosed n.state hnR a ha
  · -- disjoint
    exact foldl_bfUpdate_not_mem_E Node.path_cost (E ++ [n.state]) _ F1 hF1E1
  · -- eNodup
    rw [List.nodup_append]
    refine ⟨inv.eNodup, List.nodup_singleton _, ?_⟩
    intro s hs hb
    simp at hb
    subst hb
    exact hnE hs
  · -- eR
    intro s hs
    rcases (hmemE1 s).mp hs with h | h
    · exact inv.eR s h
    · exact h ▸ hnR
  · -- eNoGoal
    intro s hs
    rcases (hmemE1 s).mp hs with h | h
    · exact inv.eNoGoal s h
    · exact h ▸ hng
  · -- eOpt
    intro s hs acts hleg hrun
    rcases (hmemE1 s).mp hs with h | h
    · rw [hDold s h]
      exact inv.eOpt s h acts hleg hrun
    · subst h
      rw [Function.update_same]
      exact hnopt acts hleg hrun
  · -- eReal
    intro s hs
    rcases (hmemE1 s).mp hs with h | h
    · rcases inv.eReal s h with ⟨acts, h1, h2, h3⟩
      exact ⟨acts, h1, h2, by rw [hDold s h]; exact h3⟩
    · subst h
      exact ⟨n.solution, hnsol.1, hnsol.2.1,
        by rw [Function.update_same]; exact hnsol.2.2⟩
  · -- cover
    intro s hs a ha
    rcases (hmemE1 s).mp hs with hsE | hsn
    · rcases inv.cover s hsE a ha with ⟨hs2E, hD⟩ | ⟨e, he, hest, hle⟩
      · refine Or.inl ⟨(hmemE1 _).mpr (Or.inl hs2E), ?_⟩
        rw [hDold _ hs2E, hDold _ hsE]
        exact hD
      · by_cases hen : e.2.state = n.state
        · have hepop : e = (v, n) := hpopOnly e he hen
          have hs2n : p.result s a = n.state := hest ▸ hen
          refine Or.inl ⟨(hmemE1 _).mpr (Or.inr hs2n), ?_⟩
          have hupdate : Function.update D n.state n.path_cost (p.result s a) =
              n.path_cost := by
            rw [hs2n]
            exact Function.update_same _ _ _
          rw [hDold _ hsE, hupdate]
          have hv2 : e.1 = n.path_cost := by rw [hepop]; exact hvn
          calc n.path_cost = e.1 := hv2.symm
            _ ≤ D s + step s a (p.result s a) := hle
        · have heF1 : e ∈ F1 := by
            rcases List.mem_cons.mp (hperm.mem_iff.mp he) with h | h
            · exact absurd (by rw [h] : e = (v, n)) (fun h2 => hen (by rw [h2]))
            · exact h
          refine Or.inr ?_
          have hcov := foldl_bfUpdate_cover Node.path_cost (E ++ [n.state])
            (Node.expand p n) F1 hndF1 (p.result s a) (D s + step s a (p.result s a))
            ⟨e, heF1, hest, hle⟩
          rcases hcov with ⟨e2, he2, hest2, hle2⟩
          refine ⟨e2, he2, hest2, ?_⟩
          rw [hDold _ hsE]
          exact hle2
    · subst hsn
      by_cases hs2 : p.result n.state a ∈ E ++ [n.state]
      · refine Or.inl ⟨hs2, ?_⟩
        rcases (hmemE1 (p.result n.state a)).mp hs2 with h | h
        · -- explored earlier: bound via the extended path through n
          have hlegx : legalFrom p p.initial (n.solution ++ [a]) = true := by
            rw [legalFrom_snoc, hnsol.2.1]
            simp [hnsol.1, ha]
          have hrunx : runActions p p.initial (n.solution ++ [a]) =
              p.result n.state a := by
            rw [runActions_snoc, hnsol.2.1]
          have hbound := inv.eOpt _ h (n.solution ++ [a]) hlegx hrunx
          have hcost : pathCostOf p step p.initial (n.solution ++ [a]) =
              n.path_cost + step n.state a (p.result n.state a) := by
            rw [pathCostOf_snoc, hnsol.2.1, hnsol.2.2]
          have hne2 : ¬ p.result n.state a = n.state := fun h2 => hnE (h2 ▸ h)
          rw [Function.update_noteq hne2, Function.update_same]
          rw [hcost] at hbound
          exact hbound
        · -- self loop back to the just-explored state
          have hupdate : Function.update D n.state n.path_cost (p.result n.state a) =
              n.path_cost := by
            rw [h]
            exact Function.update_same _ _ _
          rw [hupdate, Function.update_same]
          have hpos := hstep n.state a (p.result n.state a)
          linarith
      · refine Or.inr ?_
        have hcE1 : ¬ (child_node p n a).state ∈ E ++ [n.state] := by
          rw [child_node_state]
          exact hs2
        rcases foldl_bfUpdate_self_cover Node.path_cost (E ++ [n.state])
          (Node.expand p n) F1 hndF1 (child_node p n a) (hchild a ha) hcE1 with
          ⟨e2, he2, hest2, hle2⟩
        refine ⟨e2, he2, by rw [hest2, child_node_state], ?_⟩
        rw [hccost a ha] at hle2
        rw [Function.update_same]
        exact hle2
  · -- rootCover
    rcases inv.rootCover with ⟨hIE, hD0⟩ | ⟨e, he, hest, hle⟩
    · refine Or.inl ⟨(hmemE1 _).mpr (Or.inl hIE), ?_⟩
      rw [hDold _ hIE]
      exact hD0
    · by_cases hen : e.2.state = n.state
      · have hepop : e = (v, n) := hpopOnly e he hen
        have hin : p.initial = n.state := hest ▸ hen
        refine Or.inl ⟨(hmemE1 _).mpr (Or.inr hin), ?_⟩
        have hupdate : Function.update D n.state n.path_cost p.initial =
            n.path_cost := by
          rw [hin]
          exact Function.update_same _ _ _
        rw [hupdate]
        have hv2 : e.1 = n.path_cost := by rw [hepop]; exact hvn
        calc n.path_cost = e.1 := hv2.symm
          _ ≤ 0 := hle
      · have heF1 : e ∈ F1 := by
          rcases List.mem_cons.mp (hperm.mem_iff.mp he) with h | h
          · exact absurd (by rw [h] : e = (v, n)) (fun h2 => hen (by rw [h2]))
          · exact h
        refine Or.inr ?_
        exact foldl_bfUpdate_cover Node.path_cost (E ++ [n.state])
          (Node.expand p n) F1 hndF1 p.initial 0 ⟨e, heF1, hest, hle⟩


/-- The uniform-cost loop, run with enough fuel from an invariant state,
returns a goal node of minimal path cost when some legal path reaches a
goal. -/
theorem bfLoop_ucs {σ : Type} [DecidableEq σ] (p : SearchProb σ)
    (step : σ → Action → σ → ℚ) (R : Finset σ)
    (hpc : ∀ (c : ℚ) (ca : Option Action) (s1 : σ) (a : Action) (s2 : σ),
      p.path_cost c ca s1 a s2 = c + step s1 a s2)
    (hstep : ∀ (s : σ) (a : Action) (s2 : σ), 0 ≤ step s a s2)
    (hclosed : ∀ s ∈ R, ∀ a ∈ p.actions s, p.result s a ∈ R)
    (acts0 : List Action) (hleg0 : legalFrom p p.initial acts0 = true)
    (hgoal0 : p.goal_test (runActions p p.initial acts0) = true) :
    ∀ (fuel : Nat) (F : PQueue σ) (E : List σ) (D : σ → ℚ),
      UcsInv p step R F E D → R.card < E.length + fuel →
      ∃ n : Node σ, (bfLoop p Node.path_cost fuel F E).1 = some n ∧
        p.goal_test n.state = true ∧ Reached p n ∧
        (∀ acts, legalFrom p p.initial acts = true →
          p.goal_test (runActions p p.initial acts) = true →
          n.path_cost ≤ pathCostOf p step p.initial acts) := by
  intro fuel
  induction fuel with
  | zero =>
    intro F E D inv hcard
    have hle := nodup_subset_length_le_card E R inv.eNodup inv.eR
    omega
  | succ fuel ih =>
    intro F E D inv hcard
    have ht0 : ¬ runActions p p.initial acts0 ∈ E := by
      intro hmem
      rw [inv.eNoGoal _ hmem] at hgoal0
      cases hgoal0
    obtain ⟨e0, he0, _⟩ := ucs_guard p step R hstep F E D inv acts0 hleg0 ht0
    cases hF : F with
    | nil =>
      rw [hF] at he0
      cases he0
    | cons x rest =>
      obtain ⟨⟨⟨v, n⟩, F1⟩, hpop⟩ := pqPop_of_nonempty x rest
      rw [hF] at inv
      have hmemF : (v, n) ∈ x :: rest :=
        (pqPop_perm _ _ _ hpop).mem_iff.mpr (List.mem_cons_self _ _)
      have hvn : v = n.path_cost := (inv.entries _ hmemF).1
      have hreach : Reached p n := (inv.entries _ hmemF).2
      by_cases hg : p.goal_test n.state = true
      · refine ⟨n, ?_, hg, hreach, ?_⟩
        · show (bfLoop p Node.path_cost (fuel + 1) (x :: rest) E).1 = some n
          unfold bfLoop
          rw [hpop]
          simp [hg]
        · intro acts hleg hgoal
          have hni : ¬ runActions p p.initial acts ∈ E := by
            intro hmem
            rw [inv.eNoGoal _ hmem] at hgoal
            cases hgoal
          obtain ⟨e, he, hle⟩ := ucs_guard p step R hstep (x :: rest) E D inv
            acts hleg hni
          have hmin := pqPop_min (x :: rest) (v, n) F1 hpop
          calc n.path_cost = v := hvn.symm
            _ ≤ e.1 := hmin e he
            _ ≤ pathCostOf p step p.initial acts := hle
      · have hng : p.goal_test n.state = false := by
          cases h2 : p.goal_test n.state with
          | true => exact absurd h2 hg
          | false => rfl
        have hnE : ¬ n.state ∈ E := inv.disjoint _ hmemF
        have hstep2 := ucs_step_inv p step R hpc hstep hclosed (x :: rest) E D inv
          v n F1 hpop hng
        have haddeq : addState E n.state = E ++ [n.state] :=
          addState_of_not_mem E n.state hnE
        have hloopeq2 : bfLoop p Node.path_cost (fuel + 1) (x :: rest) E =
            bfLoop p Node.path_cost fuel
              ((Node.expand p n).foldl
                (bfUpdate Node.path_cost (E ++ [n.state])) F1)
              (E ++ [n.state]) := by
          simp only [bfLoop]
          rw [hpop]
          simp [hng, haddeq]
        rw [hloopeq2]
        refine ih _ _ (Function.update D n.state n.path_cost) hstep2 ?_
        simp only [List.length_append, List.length_singleton]
        omega

/-- The node configurations (state, producing action, accumulated cost)
the c4b problem can ever construct. -/
theorem c4bProb_reached_configs :
    ∀ n : Node Int, Reached c4bProb n →
      (n.state = 0 ∧ n.act = none ∧ n.path_cost = 0) ∨
      (n.state = 1 ∧ n.act = some Action.UP ∧ n.path_cost = 1) ∨
      (n.state = 1 ∧ n.act = some Action.RIGHT ∧ n.path_cost = 2) ∨
      (n.state = 2 ∧ (n.path_cost = 11 ∨ n.path_cost = 2)) := by
  intro n h
  induction h with
  | root => exact Or.inl ⟨rfl, rfl, rfl⟩
  | @child n a hr ha ih =>
    rw [child_node_state, child_node_act, child_node_cost]
    rcases ih with ⟨hs, hact, hc⟩ | ⟨hs, hact, hc⟩ | ⟨hs, hact, hc⟩ | ⟨hs, hc⟩
    · rw [hs] at ha
      simp only [c4bProb, if_pos rfl] at ha
      rcases List.mem_cons.mp ha with rfl | ha2
      · refine Or.inr (Or.inl ⟨?_, rfl, ?_⟩) <;>
          simp [c4bProb, hs, hact, hc]
      · simp at ha2
        subst ha2
        refine Or.inr (Or.inr (Or.inl ⟨?_, rfl, ?_⟩)) <;>
          simp [c4bProb, hs, hact, hc]
    · rw [hs] at ha
      simp only [c4bProb] at ha
      norm_num at ha
      subst ha
      refine Or.inr (Or.inr (Or.inr ⟨?_, Or.inl ?_⟩)) <;>
        simp [c4bProb, hs, hact, hc]
    · rw [hs] at ha
      simp only [c4bProb] at ha
      norm_num at ha
      subst ha
      refine Or.inr (Or.inr (Or.inr ⟨?_, Or.inr ?_⟩)) <;>
        simp [c4bProb, hs, hact, hc]
    · rw [hs] at ha
      simp only [c4bProb] at ha
      norm_num at ha

/-- C4 counterexample: on the c4b problem the path-cost function adds a
non-negative amount at every step of every node the search can construct
(the amount depends on the producing action, as in StepTurn), the
reachable states lie in the transition-closed finite set {0, 1, 2}, and
the legal action sequence [RIGHT, UP] reaches the goal with accumulated
cost 2; yet uniform-cost search returns the goal node of cost 11 — the
state-keyed frontier suppression discards the RIGHT route into state 1
(equal state, larger g), losing its cheaper continuation — so the returned
total accumulated path cost is not minimal among all paths from the
initial state to a goal state. -/
theorem ucs_not_optimal_with_turn_cost :
    (∀ (n : Node Int) (a : Action), Reached c4bProb n →
      a ∈ c4bProb.actions n.state →
      n.path_cost ≤ (child_node c4bProb n a).path_cost) ∧
    c4bProb.initial ∈ ({0, 1, 2} : Finset Int) ∧
    (∀ s ∈ ({0, 1, 2} : Finset Int), ∀ a ∈ c4bProb.actions s,
      c4bProb.result s a ∈ ({0, 1, 2} : Finset Int)) ∧
    (uniform_cost_search c4bProb 5).1 =
      some (child_node c4bProb (child_node c4bProb (Node.root 0) Action.UP)
        Action.UP) ∧
    c4bProb.goal_test (child_node c4bProb (child_node c4bProb (Node.root 0)
      Action.UP) Action.UP).state = true ∧
    (child_node c4bProb (child_node c4bProb (Node.root 0) Action.UP)
      Action.UP).path_cost = 11 ∧
    legalFrom c4bProb c4bProb.initial [Action.RIGHT, Action.UP] = true ∧
    c4bProb.goal_test (runActions c4bProb c4bProb.initial
      [Action.RIGHT, Action.UP]) = true ∧
    (accumNode c4bProb (Node.root c4bProb.initial)
      [Action.RIGHT, Action.UP]).path_cost = 2 ∧
    ¬ ((child_node c4bProb (child_node c4bProb (Node.root 0) Action.UP)
        Action.UP).path_cost ≤
      (accumNode c4bProb (Node.root c4bProb.initial)
        [Action.RIGHT, Action.UP]).path_cost) := by
  refine ⟨?_, by decide, by decide, rfl, rfl, rfl, rfl, rfl, rfl, by decide⟩
  intro n a hr ha
  rw [child_node_cost]
  rcases c4bProb_reached_configs n hr with ⟨hs, hact, hc⟩ | ⟨hs, hact, hc⟩ |
    ⟨hs, hact, hc⟩ | ⟨hs, hc⟩
  · rw [hs, hact, hc]
    by_cases h2 : a = Action.RIGHT <;> simp [c4bProb, h2]
  · rw [hs, hact, hc]
    simp [c4bProb]
  · rw [hs, hact, hc]
    simp [c4bProb]
  · rw [hs] at ha
    simp only [c4bProb] at ha
    norm_num at ha

/-- C4 amended: for every problem whose path-cost function adds a
non-negative per-step amount that depends only on the step taken
(state1, action, state2) — not on the path history, so history-dependent
costs like StepTurn are excluded, see the counterexample — and whose
reachable state space is contained in a finite transition-closed set R,
uniform-cost search with fuel beyond card R returns, whenever some legal
action sequence reaches a goal, a goal node whose recorded path cost is
realized by its own solution and is minimal among the costs of all legal
action sequences from the initial state to any goal state. -/
theorem uniform_cost_search_optimal :
    ∀ {σ : Type} [inst : DecidableEq σ] (p : SearchProb σ)
      (step : σ → Action → σ → ℚ),
      (∀ (c : ℚ) (ca : Option Action) (s1 : σ) (a : Action) (s2 : σ),
        p.path_cost c ca s1 a s2 = c + step s1 a s2) →
      (∀ (s : σ) (a : Action) (s2 : σ), 0 ≤ step s a s2) →
      ∀ R : Finset σ, p.initial ∈ R →
      (∀ s ∈ R, ∀ a ∈ p.actions s, p.result s a ∈ R) →
      ∀ fuel : Nat, R.card < fuel →
      ∀ acts0 : List Action, legalFrom p p.initial acts0 = true →
      p.goal_test (runActions p p.initial acts0) = true →
      ∃ n : Node σ, (uniform_cost_search p fuel).1 = some n ∧
        p.goal_test n.state = true ∧
        legalFrom p p.initial n.solution = true ∧
        runActions p p.initial n.solution = n.state ∧
        pathCostOf p step p.initial n.solution = n.path_cost ∧
        (∀ acts : List Action, legalFrom p p.initial acts = true →
          p.goal_test (runActions p p.initial acts) = true →
          n.path_cost ≤ pathCostOf p step p.initial acts) := by
  intro σ inst p step hpc hstep R hinit hclosed fuel hfuel acts0 hleg0 hgoal0
  have inv0 : UcsInv p step R
      [(Node.path_cost (Node.root p.initial), Node.root p.initial)] []
      (fun _ => 0) := by
    refine ⟨?_, ?_, ?_, ?_, ?_, ?_, ?_, ?_, ?_, ?_, ?_⟩
    · intro e he
      simp at he
      subst he
      exact ⟨rfl, Reached.root⟩
    · simp [pqStates]
    · intro e he
      simp at he
      subst he
      exact hinit
    · intro e _ h
      cases h
    · exact List.nodup_nil
    · intro s h
      cases h
    · intro s h
      cases h
    · intro s h
      cases h
    · intro s h
      cases h
    · intro s h
      cases h
    · refine Or.inr ⟨(Node.path_cost (Node.root p.initial), Node.root p.initial),
        by simp, rfl, le_refl _⟩
  obtain ⟨n, hres, hgoal, hreach, hmin⟩ := bfLoop_ucs p step R hpc hstep hclosed
    acts0 hleg0 hgoal0 fuel
    [(Node.path_cost (Node.root p.initial), Node.root p.initial)] []
    (fun _ => 0) inv0 (by simpa using hfuel)
  have hspec := reached_spec p step hpc n hreach
  exact ⟨n, hres, hgoal, hspec.1, hspec.2.1, hspec.2.2, hmin⟩

/-- C4 witness: the two-state chain problem, with unit step costs, the
closed state set {0, 1}, fuel 3 and the goal-reaching action list
[RIGHT]. -/
theorem uniform_cost_search_optimal_witness :
    ∃ n : Node Int, (uniform_cost_search c4Prob 3).1 = some n ∧
      c4Prob.goal_test n.state = true ∧
      legalFrom c4Prob c4Prob.initial n.solution = true ∧
      runActions c4Prob c4Prob.initial n.solution = n.state ∧
      pathCostOf c4Prob (fun _ _ _ => 1) c4Prob.initial n.solution = n.path_cost ∧
      (∀ acts : List Action, legalFrom c4Prob c4Prob.initial acts = true →
        c4Prob.goal_test (runActions c4Prob c4Prob.initial acts) = true →
        n.path_cost ≤ pathCostOf c4Prob (fun _ _ _ => 1) c4Prob.initial acts) :=
  uniform_cost_search_optimal c4Prob (fun _ _ _ => 1)
    (fun _ _ _ _ _ => rfl) (fun _ _ _ => zero_le_one)
    ({0, 1} : Finset Int) (by decide) (by decide) 3 (by decide)
    [Action.RIGHT] (by decide) (by decide)


/-- BFS child processing keeps all frontier states inside a
transition-closed set. -/
theorem bfsChildren_front_R {σ : Type} [DecidableEq σ] (p : SearchProb σ)
    (R : Finset σ) (hclosed : ∀ s ∈ R, ∀ a ∈ p.actions s, p.result s a ∈ R)
    (n : Node σ) (hnR : n.state ∈ R) :
    ∀ (acts : List Action) (front : List (Node σ)) (explored : List σ),
      (∀ a ∈ acts, a ∈ p.actions n.state) →
      (∀ m ∈ front, m.state ∈ R) →
      ∀ m ∈ (bfsChildren p n acts front explored).2, m.state ∈ R := by
  intro acts
  induction acts with
  | nil => exact fun front explored _ hfront => hfront
  | cons a rest ih =>
    intro front explored hacts hfront
    show ∀ m ∈ (bfsChildren p n (a :: rest) front explored).2, m.state ∈ R
    have hcR : (child_node p n a).state ∈ R := by
      rw [child_node_state]
      exact hclosed n.state hnR a (hacts a (List.mem_cons_self a rest))
    have hacts2 : ∀ a2 ∈ rest, a2 ∈ p.actions n.state :=
      fun a2 ha2 => hacts a2 (List.mem_cons_of_mem a ha2)
    simp only [bfsChildren]
    split
    · exact ih front explored hacts2 hfront
    · split
      · exact hfront
      · refine ih (front ++ [child_node p n a]) explored hacts2 ?_
        intro m hm
        rcases List.mem_append.mp hm with h | h
        · exact hfront m h
        · simp at h
          subst h
          exact hcR

/-- DFS child processing keeps all frontier states inside a
transition-closed set. -/
theorem dfsChildren_front_R {σ : Type} [DecidableEq σ] (p : SearchProb σ)
    (R : Finset σ) (hclosed : ∀ s ∈ R, ∀ a ∈ p.actions s, p.result s a ∈ R)
    (n : Node σ) (hnR : n.state ∈ R) :
    ∀ (acts : List Action) (front : List (Node σ)) (explored : List σ),
      (∀ a ∈ acts, a ∈ p.actions n.state) →
      (∀ m ∈ front, m.state ∈ R) →
      ∀ m ∈ (dfsChildren p n acts front explored).2, m.state ∈ R := by
  intro acts
  induction acts with
  | nil => exact fun front explored _ hfront => hfront
  | cons a rest ih =>
    intro front explored hacts hfront
    have hcR : (child_node p n a).state ∈ R := by
      rw [child_node_state]
      exact hclosed n.state hnR a (hacts a (List.mem_cons_self a rest))
    have hacts2 : ∀ a2 ∈ rest, a2 ∈ p.actions n.state :=
      fun a2 ha2 => hacts a2 (List.mem_cons_of_mem a ha2)
    simp only [dfsChildren]
    split
    · exact ih front explored hacts2 hfront
    · split
      · exact hfront
      · refine ih (child_node p n a :: front) explored hacts2 ?_
        intro m hm
        rcases List.mem_cons.mp hm with h | h
        · subst h
          exact hcR
        · exact hfront m h

/-- The breadth-first loop only ever explores states of a transition-closed
set, without duplicates. -/
theorem bfsLoop_explored_spec {σ : Type} [DecidableEq σ] (p : SearchProb σ)
    (R : Finset σ) (hclosed : ∀ s ∈ R, ∀ a ∈ p.actions s, p.result s a ∈ R) :
    ∀ (fuel : Nat) (front : List (Node σ)) (explored : List σ),
      (∀ m ∈ front, m.state ∈ R) → (∀ s ∈ explored, s ∈ R) → explored.Nodup →
      (∀ s ∈ (bfsLoop p fuel front explored).2, s ∈ R) ∧
      (bfsLoop p fuel front explored).2.Nodup := by
  intro fuel
  induction fuel with
  | zero => exact fun front explored _ hexp hnd => ⟨hexp, hnd⟩
  | succ fuel ih =>
    intro front explored hfront hexp hnd
    cases front with
    | nil => exact ⟨hexp, hnd⟩
    | cons node rest =>
      have hnodeR : node.state ∈ R := hfront node (List.mem_cons_self _ _)
      have hexp1 : ∀ s ∈ addState explored node.state, s ∈ R := by
        intro s hs
        rcases (addState_mem explored node.state s).mp hs with h | h
        · exact hexp s h
        · exact h ▸ hnodeR
      have hnd1 : (addState explored node.state).Nodup :=
        addState_nodup explored node.state hnd
      have hrest : ∀ m ∈ rest, m.state ∈ R :=
        fun m hm => hfront m (List.mem_cons_of_mem _ hm)
      show (∀ s ∈ (bfsLoop p (fuel + 1) (node :: rest) explored).2, s ∈ R) ∧
        (bfsLoop p (fuel + 1) (node :: rest) explored).2.Nodup
      simp only [bfsLoop]
      cases hmatch : bfsChildren p node (p.actions node.state) rest
        (addState explored node.state) with
      | mk res front1 =>
        cases res with
        | none =>
          have hfront1 : ∀ m ∈ front1, m.state ∈ R := by
            have h2 := bfsChildren_front_R p R hclosed node hnodeR
              (p.actions node.state) rest (addState explored node.state)
              (fun a ha => ha) hrest
            rw [hmatch] at h2
            exact h2
          exact ih front1 (addState explored node.state) hfront1 hexp1 hnd1
        | some c => exact ⟨hexp1, hnd1⟩

/-- The depth-first loop only ever explores states of a transition-closed
set, without duplicates. -/
theorem dfsLoop_explored_spec {σ : Type} [DecidableEq σ] (p : SearchProb σ)
    (R : Finset σ) (hclosed : ∀ s ∈ R, ∀ a ∈ p.actions s, p.result s a ∈ R) :
    ∀ (fuel : Nat) (front : List (Node σ)) (explored : List σ),
      (∀ m ∈ front, m.state ∈ R) → (∀ s ∈ explored, s ∈ R) → explored.Nodup →
      (∀ s ∈ (dfsLoop p fuel front explored).2, s ∈ R) ∧
      (dfsLoop p fuel front explored).2.Nodup := by
  intro fuel
  induction fuel with
  | zero => exact fun front explored _ hexp hnd => ⟨hexp, hnd⟩
  | succ fuel ih =>
    intro front explored hfront hexp hnd
    cases front with
    | nil => exact ⟨hexp, hnd⟩
    | cons node rest =>
      have hnodeR : node.state ∈ R := hfront node (List.mem_cons_self _ _)
      have hexp1 : ∀ s ∈ addState explored node.state, s ∈ R := by
        intro s hs
        rcases (addState_mem explored node.state s).mp hs with h | h
        · exact hexp s h
        · exact h ▸ hnodeR
      have hnd1 : (addState explored node.state).Nodup :=
        addState_nodup explored node.state hnd
      have hrest : ∀ m ∈ rest, m.state ∈ R :=
        fun m hm => hfront m (List.mem_cons_of_mem _ hm)
      simp only [dfsLoop]
      cases hmatch : dfsChildren p node (p.actions node.state) rest
        (addState explored node.state) with
      | mk res front1 =>
        cases res with
        | none =>
          have hfront1 : ∀ m ∈ front1, m.state ∈ R := by
            have h2 := dfsChildren_front_R p R hclosed node hnodeR
              (p.actions node.state) rest (addState explored node.state)
              (fun a ha => ha) hrest
            rw [hmatch] at h2
            exact h2
          exact ih front1 (addState explored node.state) hfront1 hexp1 hnd1
        | some c => exact ⟨hexp1, hnd1⟩

/-- The best-first loop only ever explores states of a transition-closed
set, without duplicates. -/
theorem bfLoop_explored_spec {σ : Type} [DecidableEq σ] (p : SearchProb σ)
    (f : Node σ → ℚ) (R : Finset σ)
    (hclosed : ∀ s ∈ R, ∀ a ∈ p.actions s, p.result s a ∈ R) :
    ∀ (fuel : Nat) (front : PQueue σ) (explored : List σ),
      (∀ e ∈ front, e.2.state ∈ R) → (∀ s ∈ explored, s ∈ R) → explored.Nodup →
      (∀ s ∈ (bfLoop p f fuel front explored).2, s ∈ R) ∧
      (bfLoop p f fuel front explored).2.Nodup := by
  intro fuel
  induction fuel with
  | zero => exact fun front explored _ hexp hnd => ⟨hexp, hnd⟩
  | succ fuel ih =>
    intro front explored hfront hexp hnd
    simp only [bfLoop]
    cases hpop : pqPop front with
    | none => exact ⟨hexp, hnd⟩
    | some x =>
      rcases x with ⟨e, front1⟩
      have hperm := pqPop_perm front e front1 hpop
      have heF : e ∈ front := hperm.mem_iff.mpr (List.mem_cons_self _ _)
      have heR : e.2.state ∈ R := hfront e heF
      have hfront1 : ∀ e2 ∈ front1, e2.2.state ∈ R := fun e2 he2 =>
        hfront e2 (hperm.mem_iff.mpr (List.mem_cons_of_mem _ he2))
      by_cases hg : p.goal_test e.2.state = true
      · simp [hg]
        exact ⟨hexp, hnd⟩
      · have hg2 : p.goal_test e.2.state = false := by
          cases h2 : p.goal_test e.2.state with
          | true => exact absurd h2 hg
          | false => rfl
        simp [hg2]
        have hexp1 : ∀ s ∈ addState explored e.2.state, s ∈ R := by
          intro s hs
          rcases (addState_mem explored e.2.state s).mp hs with h | h
          · exact hexp s h
          · exact h ▸ heR
        have hnd1 : (addState explored e.2.state).Nodup :=
          addState_nodup explored e.2.state hnd
        refine ih _ (addState explored e.2.state) ?_ hexp1 hnd1
        intro e2 he2
        rcases foldl_bfUpdate_mem f (addState explored e.2.state)
          (Node.expand p e.2) front1 e2 he2 with h | ⟨c, hc, rfl⟩
        · exact hfront1 e2 h
        · rcases (expand_mem p e.2 c).mp hc with ⟨a, ha, rfl⟩
          rw [child_node_state]
          exact hclosed e.2.state heR a ha

/-- C8 amended: for every transition-closed finite superset R of the
reachable states, the explored set returned by each graph-search variant
contains only states of R, is duplicate-free, and its size never exceeds
card R; when the initial state already satisfies goal_test, breadth-first
and depth-first return exactly the singleton of the root's state, while
best-first returns the empty explored set. -/
theorem explored_spec :
    ∀ {σ : Type} [inst : DecidableEq σ] (p : SearchProb σ) (R : Finset σ),
      p.initial ∈ R →
      (∀ s ∈ R, ∀ a ∈ p.actions s, p.result s a ∈ R) →
      ∀ (fuel : Nat) (f : Node σ → ℚ),
      ((∀ s ∈ (breadth_first_graph_search p fuel).2, s ∈ R) ∧
        (breadth_first_graph_search p fuel).2.Nodup ∧
        (breadth_first_graph_search p fuel).2.length ≤ R.card) ∧
      ((∀ s ∈ (depth_first_graph_search p fuel).2, s ∈ R) ∧
        (depth_first_graph_search p fuel).2.Nodup ∧
        (depth_first_graph_search p fuel).2.length ≤ R.card) ∧
      ((∀ s ∈ (best_first_graph_search p f fuel).2, s ∈ R) ∧
        (best_first_graph_search p f fuel).2.Nodup ∧
        (best_first_graph_search p f fuel).2.length ≤ R.card) ∧
      (p.goal_test p.initial = true →
        (breadth_first_graph_search p fuel).2 = [p.initial] ∧
        (depth_first_graph_search p fuel).2 = [p.initial] ∧
        (best_first_graph_search p f fuel).2 = []) := by
  intro σ inst p R hinit hclosed fuel f
  have hroot : ∀ m ∈ [Node.root p.initial], Node.state m ∈ R := by
    intro m hm
    simp at hm
    subst hm
    exact hinit
  have hbfs : (∀ s ∈ (breadth_first_graph_search p fuel).2, s ∈ R) ∧
      (breadth_first_graph_search p fuel).2.Nodup := by
    unfold breadth_first_graph_search
    split
    · refine ⟨?_, List.nodup_singleton _⟩
      intro s hs
      simp at hs
      subst hs
      exact hinit
    · exact bfsLoop_explored_spec p R hclosed fuel [Node.root p.initial] []
        hroot (fun s h => absurd h (List.not_mem_nil s)) List.nodup_nil
  have hdfs : (∀ s ∈ (depth_first_graph_search p fuel).2, s ∈ R) ∧
      (depth_first_graph_search p fuel).2.Nodup := by
    unfold depth_first_graph_search
    split
    · refine ⟨?_, List.nodup_singleton _⟩
      intro s hs
      simp at hs
      subst hs
      exact hinit
    · exact dfsLoop_explored_spec p R hclosed fuel [Node.root p.initial] []
        hroot (fun s h => absurd h (List.not_mem_nil s)) List.nodup_nil
  have hbf : (∀ s ∈ (best_first_graph_search p f fuel).2, s ∈ R) ∧
      (best_first_graph_search p f fuel).2.Nodup := by
    unfold best_first_graph_search
    refine bfLoop_explored_spec p f R hclosed fuel
      [(f (Node.root p.initial), Node.root p.initial)] [] ?_
      (fun s h => absurd h (List.not_mem_nil s)) List.nodup_nil
    intro e he
    simp at he
    subst he
    exact hinit
  refine ⟨⟨hbfs.1, hbfs.2, nodup_subset_length_le_card _ R hbfs.2 hbfs.1⟩,
    ⟨hdfs.1, hdfs.2, nodup_subset_length_le_card _ R hdfs.2 hdfs.1⟩,
    ⟨hbf.1, hbf.2, nodup_subset_length_le_card _ R hbf.2 hbf.1⟩, ?_⟩
  intro hg
  have hg2 : p.goal_test (Node.root p.initial : Node σ).state = true := hg
  refine ⟨?_, ?_, ?_⟩
  · unfold breadth_first_graph_search
    rw [if_pos hg2]
    rfl
  · unfold depth_first_graph_search
    rw [if_pos hg2]
    rfl
  · unfold best_first_graph_search
    cases fuel with
    | zero => rfl
    | succ fuel =>
      simp only [bfLoop]
      have hpop : pqPop [(f (Node.root p.initial), Node.root p.initial)] =
          some ((f (Node.root p.initial), Node.root p.initial), []) := rfl
      rw [hpop]
      simp [hg2]

/-- C8 amended witness: on the one-state problem with a goal root,
breadth-first returns the singleton explored list, best-first the empty
one, and the explored size is bounded by the closed set's cardinality. -/
theorem explored_spec_witness :
    (breadth_first_graph_search c8ProbB 2).2 = [c8ProbB.initial] ∧
    (depth_first_graph_search c8ProbB 2).2 = [c8ProbB.initial] ∧
    (best_first_graph_search c8ProbB Node.path_cost 2).2 = [] ∧
    (breadth_first_graph_search c8ProbB 2).2.length ≤ ({0} : Finset Int).card :=
  ⟨((explored_spec c8ProbB ({0} : Finset Int) (by decide) (by decide) 2
      Node.path_cost).2.2.2 rfl).1,
   ((explored_spec c8ProbB ({0} : Finset Int) (by decide) (by decide) 2
      Node.path_cost).2.2.2 rfl).2.1,
   ((explored_spec c8ProbB ({0} : Finset Int) (by decide) (by decide) 2
      Node.path_cost).2.2.2 rfl).2.2,
   (explored_spec c8ProbB ({0} : Finset Int) (by decide) (by decide) 2
      Node.path_cost).1.2.2⟩


end VaccumAI